import Mathlib

/-!
# Verification of the cartography-system core (`helper_functions.py`)

Shallow embedding of the building placement solver, the road-topology
generator (triple-enumeration Delaunay + Kruskal minimum spanning tree, the
latter modelling `networkx.minimum_spanning_tree`) and the cost-weighted A*
grid pathfinder, together with proofs and refutations of the specification
claims.

Modelling conventions:
* `numpy` 2-D arrays become row-major `List (List ℚ)` grids.
* Python floats become exact rationals `ℚ`; the literal `1.414` becomes
  `1414/1000`.  Square roots that the source only ever uses inside monotone
  comparisons (`sorted` keys, `<` against a radius, edge-weight sorting) are
  replaced by comparisons of the squared quantities, which order identically;
  real-valued square roots appear only in theorem statements about total path
  weights.
* Python dicts keyed by zone name become total functions `String → _` (the
  spec requires the configuration to cover every zone name used).
* The unbounded `while` loop of `astar` becomes a fuel-indexed recursion;
  all claims about a returned value are conditioned on the loop returning
  within the given fuel, and concrete runs exhibit concrete fuels.
-/

namespace Cartography

/-- A raster grid, row-major (`g[y][x]` is `(g.getD y []).getD x 0`),
mirroring a 2-D `numpy` array of numbers. -/
abbrev Mask := List (List ℚ)

/-- An integer pixel coordinate `(x, y)` — Python tuples used by `astar`. -/
abbrev Point := ℤ × ℤ

/-- Number of rows, `mask.shape[0]`. -/
def maskRows (g : Mask) : ℕ := g.length

/-- Number of columns, `mask.shape[1]` (grids are rectangular). -/
def maskCols (g : Mask) : ℕ := (g.headD []).length

/-- Cell value at row `y`, column `x` (ℕ indices), `0` out of range. -/
def cellN (g : Mask) (y x : ℕ) : ℚ := (g.getD y []).getD x 0

/-- Cell value at column `x`, row `y` for integer coordinates; reads are
bounds-checked by the callers exactly where the source checks bounds. -/
def cellZ (g : Mask) (x y : ℤ) : ℚ :=
  if 0 ≤ x ∧ 0 ≤ y then cellN g y.toNat x.toNat else 0

/-- `__plot_overlap__(rect1, rect2, min_distance)` from the source: the
rectangles, each `(x, y, w, h)`, fail all four axis separation tests. -/
def plot_overlap (rect1 rect2 : ℕ × ℕ × ℕ × ℕ) (min_distance : ℕ) : Bool :=
  let (x1, y1, w1, h1) := rect1
  let (x2, y2, w2, h2) := rect2
  !(decide (x1 + w1 + min_distance ≤ x2) ||
    decide (x2 + w2 + min_distance ≤ x1) ||
    decide (y1 + h1 + min_distance ≤ y2) ||
    decide (y2 + h2 + min_distance ≤ y1))

/-- The image moments `(m00, m10, m01)` of a grid as computed by
`cv2.moments`: `m00 = Σ v`, `m10 = Σ x·v`, `m01 = Σ y·v` over cells `(x,y)`
with value `v`. -/
def maskMoments (g : Mask) : ℚ × ℚ × ℚ :=
  (g.enum.foldl (fun acc (yrow : ℕ × List ℚ) =>
    yrow.2.enum.foldl (fun acc2 (xv : ℕ × ℚ) =>
      (acc2.1 + xv.2, acc2.2.1 + (xv.1 : ℚ) * xv.2, acc2.2.2 + (yrow.1 : ℚ) * xv.2))
      acc) (0, 0, 0))

/-- `get_mask_centroid`: `(⌊m10/m00⌋, ⌊m01/m00⌋)` when `m00 ≠ 0`, else `None`.
(`int()` truncation coincides with `⌊·⌋` on the nonnegative values produced
by the `uint8` masks of the source.) -/
def get_mask_centroid (g : Mask) : Option (ℤ × ℤ) :=
  let m := maskMoments g
  if m.1 ≠ 0 then some (⌊m.2.1 / m.1⌋, ⌊m.2.2 / m.1⌋) else none

/-- `np.argwhere(mask > 0)`: `(row, col)` indices of strictly positive cells
in row-major order. -/
def argwherePos (g : Mask) : List (ℕ × ℕ) :=
  (g.enum.map (fun yrow =>
    yrow.2.enum.filterMap (fun xv =>
      if 0 < xv.2 then some (yrow.1, xv.1) else none))).flatten

/-- The sort key used at `helper_functions.py:103` on an `argwhere` element
`p = (y, x)` given the centroid `(cx, cy)`: it compares the row `y` against
`cx` and the column `x` against `cy` (coordinates crossed), i.e. the squared
distance from `(y, x)` to `(cx, cy)` read in `(row, col)` order.  The
source's final `** 0.5` is omitted: square root is strictly monotone, so
sorting by the square yields the same order. -/
def code_key (c : ℤ × ℤ) (p : ℕ × ℕ) : ℚ :=
  ((p.1 : ℚ) - (c.1 : ℚ)) ^ 2 + ((p.2 : ℚ) - (c.2 : ℚ)) ^ 2

/-- The squared Euclidean distance from the pixel `p = (y, x)` to the
centroid `c = (cx, cy)` — what the spec says the solver sorts by. -/
def centroid_dist2 (c : ℤ × ℤ) (p : ℕ × ℕ) : ℚ :=
  ((p.2 : ℚ) - (c.1 : ℚ)) ^ 2 + ((p.1 : ℚ) - (c.2 : ℚ)) ^ 2

/-- The candidate enumeration of `place_buildings` for one zone mask:
`sorted(np.argwhere(mask > 0), key=...)` (a stable sort).  When the centroid
is `None` the mask has no positive cell under the source's `uint8` value
convention, so `argwhere` is empty and the key is never evaluated; the
match models that. -/
def candidate_order (g : Mask) : List (ℕ × ℕ) :=
  match get_mask_centroid g with
  | none => []
  | some c =>
      List.insertionSort (fun p q => code_key c p ≤ code_key c q) (argwherePos g)

/-- A catalog entry as consumed by `place_buildings`:
`{name, size: (width, height), location}`. -/
structure Blueprint where
  name : String
  size : ℕ × ℕ
  location : String
deriving DecidableEq, Repr

/-- A placed building `{nametag, rect}` with `rect = (x, y, w, h)`. -/
structure Placed where
  nametag : String
  rect : ℕ × ℕ × ℕ × ℕ
deriving DecidableEq, Repr

/-- `np.zeros_like`. -/
def zerosLike (g : Mask) : Mask := g.map (fun row => row.map (fun _ => 0))

/-- Stamp `building_mask[y:y+h, x:x+w] = 1` (numpy slice assignment, which
clips at the array boundary). -/
def setRegion (g : Mask) (x y w h : ℕ) : Mask :=
  g.enum.map (fun yrow =>
    if y ≤ yrow.1 ∧ yrow.1 < y + h then
      yrow.2.enum.map (fun xv => if x ≤ xv.1 ∧ xv.1 < x + w then 1 else xv.2)
    else yrow.2)

/-- Feasibility of placing a `w×h` footprint with top-left pixel `(y, x)`
(an `argwhere` element) — the three nested checks of the source: the
rectangle lies inside the raster, every covered mask cell is positive, and
it passes `__plot_overlap__` with margin 10 against every placed building. -/
def feasible (mask : Mask) (placed : List Placed) (w h : ℕ) (p : ℕ × ℕ) : Bool :=
  decide (p.2 + w ≤ maskCols mask) && decide (p.1 + h ≤ maskRows mask) &&
  (List.range h).all (fun dy =>
    (List.range w).all (fun dx => decide (0 < cellN mask (p.1 + dy) (p.2 + dx)))) &&
  placed.all (fun pb => !(plot_overlap (p.2, p.1, w, h) pb.rect 10))

/-- Process one queued building: scan the candidate order for the first
feasible position; on success record the building and stamp the occupancy
mask, otherwise leave the state unchanged (the building is skipped). -/
def placeOne (masks : String → Mask) (st : List Placed × Mask) (b : Blueprint) :
    List Placed × Mask :=
  let mask := masks b.location
  match (candidate_order mask).find? (feasible mask st.1 b.size.1 b.size.2) with
  | none => st
  | some p =>
      (st.1 ++ [⟨b.name, (p.2, p.1, b.size.1, b.size.2)⟩],
       setRegion st.2 p.2 p.1 b.size.1 b.size.2)

/-- `place_buildings(blueprints, amounts, masks)`: expand the catalog by the
requested amounts, then greedily place each building in order. -/
def place_buildings (blueprints : List Blueprint) (amounts : String → ℕ)
    (masks : String → Mask) : List Placed × Mask :=
  let buildings_to_place := (blueprints.map (fun b => List.replicate (amounts b.name) b)).flatten
  buildings_to_place.foldl (placeOne masks) ([], zerosLike (masks "zero"))

/-! ## Road topology: `get_circumcircle`, `custom_delaunay`, `generate_path_tree` -/

/-- A planar point with rational coordinates. -/
abbrev QPoint := ℚ × ℚ

/-- Squared Euclidean distance between two points. -/
def dist2 (a b : QPoint) : ℚ := (a.1 - b.1) ^ 2 + (a.2 - b.2) ^ 2

/-- `get_circumcircle(p1, p2, p3)`: `none` when the orientation determinant
`D` vanishes (collinear input, the source's `(None, inf)` case), otherwise
the circumcenter together with the *square* of the returned radius
(`radius = sqrt(det(A3)/D + x² + y²)` in the source; every use compares a
nonnegative distance against it, which squares faithfully — a negative
argument to `sqrt` yields NaN there and every `<` against NaN is false,
matching `dist2 < r2` being false when `r2 < 0`). -/
def get_circumcircle (p1 p2 p3 : QPoint) : Option (QPoint × ℚ) :=
  let D := p1.1 * (p2.2 - p3.2) - p1.2 * (p2.1 - p3.1) + (p2.1 * p3.2 - p3.1 * p2.2)
  if D = 0 then none
  else
    let s1 := p1.1 ^ 2 + p1.2 ^ 2
    let s2 := p2.1 ^ 2 + p2.2 ^ 2
    let s3 := p3.1 ^ 2 + p3.2 ^ 2
    let detA1 := s1 * (p2.2 - p3.2) - p1.2 * (s2 - s3) + (s2 * p3.2 - s3 * p2.2)
    let detA2 := s1 * (p2.1 - p3.1) - p1.1 * (s2 - s3) + (s2 * p3.1 - s3 * p2.1)
    let detA3 := s1 * (p2.1 * p3.2 - p3.1 * p2.2) - p1.1 * (s2 * p3.2 - s3 * p2.2)
      + p1.2 * (s2 * p3.1 - s3 * p2.1)
    let x := detA1 / (2 * D)
    let y := -detA2 / (2 * D)
    some ((x, y), detA3 / D + x ^ 2 + y ^ 2)

/-- Append an edge to the accumulated edge collection unless already present
(the model of `set.add`; membership agrees with the Python set, and the
deterministic insertion order stands in for the unspecified set iteration
order, on which no claim depends). -/
def addEdge (es : List (ℕ × ℕ)) (e : ℕ × ℕ) : List (ℕ × ℕ) :=
  if e ∈ es then es else es ++ [e]

/-- The index triples `(i, j, k)` with `i < j < k < n` in the source's
nested-loop order. -/
def tripleList (n : ℕ) : List (ℕ × ℕ × ℕ) :=
  (List.range n).flatMap (fun i =>
    ((List.range n).drop (i + 1)).flatMap (fun j =>
      ((List.range n).drop (j + 1)).map (fun k => (i, j, k))))

/-- The validity test of one triple inside `custom_delaunay`: the
circumcircle exists and no other input point lies strictly inside it. -/
def tripleValid (points : List QPoint) (i j k : ℕ) : Bool :=
  match get_circumcircle (points.getD i (0, 0)) (points.getD j (0, 0)) (points.getD k (0, 0)) with
  | none => false
  | some cr =>
      (List.range points.length).all (fun m =>
        if m ≠ i ∧ m ≠ j ∧ m ≠ k then
          !(decide (dist2 (points.getD m (0, 0)) cr.1 < cr.2))
        else true)

/-- `custom_delaunay(points)`: every valid triple `i < j < k` contributes
the ordered pairs `(i,j)`, `(j,k)` and `(k,i)` (the last one reversed,
exactly as in the source). -/
def custom_delaunay (points : List QPoint) : List (ℕ × ℕ) :=
  (tripleList points.length).foldl (fun es t =>
    if tripleValid points t.1 t.2.1 t.2.2 then
      addEdge (addEdge (addEdge es (t.1, t.2.1)) (t.2.1, t.2.2)) (t.2.2, t.1)
    else es) []

/-- `building_centers`: `(x + w // 2, y + h // 2)` with integer division. -/
def building_centers (buildings : List Placed) : List QPoint :=
  buildings.map (fun b =>
    (((b.rect.1 + b.rect.2.2.1 / 2 : ℕ) : ℚ), ((b.rect.2.1 + b.rect.2.2.2 / 2 : ℕ) : ℚ)))

/-- Normalize an undirected edge to `(min, max)` — `networkx.Graph`
identifies `(i, j)` with `(j, i)`. -/
def undir (e : ℕ × ℕ) : ℕ × ℕ := if e.1 ≤ e.2 then e else (e.2, e.1)

/-- The squared Euclidean weight of an index edge over a center list.  The
source weighs edges by `np.linalg.norm(p1 - p2)`; all of Kruskal's
comparisons of weights transfer to the squares because `sqrt` is monotone,
and statements about total weights use `Real.sqrt` of this quantity. -/
def edgeW (centers : List QPoint) (e : ℕ × ℕ) : ℚ :=
  dist2 (centers.getD e.1 (0, 0)) (centers.getD e.2 (0, 0))

/-- The working graph of `generate_path_tree`: Delaunay edges, filtered by
`distance <= max_length` when a maximum is given, normalized and
de-duplicated as `networkx.Graph.add_edge` does. -/
def graphEdges (centers : List QPoint) (max_length : Option ℕ) : List (ℕ × ℕ) :=
  ((custom_delaunay centers).filter (fun e =>
      match max_length with
      | none => true
      | some L => decide (edgeW centers e ≤ (L : ℚ) ^ 2))).foldl
    (fun acc e => addEdge acc (undir e)) []

/-- Relabel the class of `e.1` onto the class of `e.2` — the union step of
the union-find inside Kruskal's algorithm. -/
def mergeLab (lab : ℕ → ℕ) (e : ℕ × ℕ) : ℕ → ℕ :=
  fun x => if lab x = lab e.1 then lab e.2 else lab x

/-- One Kruskal step: accept the edge iff its endpoints lie in different
components of the accepted forest. -/
def kruskalStep (st : List (ℕ × ℕ) × (ℕ → ℕ)) (e : ℕ × ℕ) : List (ℕ × ℕ) × (ℕ → ℕ) :=
  if st.2 e.1 = st.2 e.2 then st else (st.1 ++ [e], mergeLab st.2 e)

/-- Kruskal's algorithm on an edge list already sorted by weight — the model
of `networkx.minimum_spanning_tree` (whose default algorithm is Kruskal). -/
def kruskal (es : List (ℕ × ℕ)) : List (ℕ × ℕ) :=
  (es.foldl kruskalStep ([], id)).1

/-- Stable sort of the graph edges by weight (Python's `sorted` is stable;
sorting by the squared weight orders identically). -/
def sortEdges (centers : List QPoint) (es : List (ℕ × ℕ)) : List (ℕ × ℕ) :=
  List.insertionSort (fun a b => edgeW centers a ≤ edgeW centers b) es

/-- The minimum-spanning-forest edge list (as index pairs) computed by
`generate_path_tree` before resolving indices back to coordinates. -/
def path_tree_edges (buildings : List Placed) (max_length : Option ℕ) : List (ℕ × ℕ) :=
  let centers := building_centers buildings
  kruskal (sortEdges centers (graphEdges centers max_length))

/-- `generate_path_tree(buildings, max_length)`: the MST edges resolved to
center-coordinate pairs. -/
def generate_path_tree (buildings : List Placed) (max_length : Option ℕ) :
    List (QPoint × QPoint) :=
  let centers := building_centers buildings
  (path_tree_edges buildings max_length).map (fun e =>
    (centers.getD e.1 (0, 0), centers.getD e.2 (0, 0)))

/-! ## The A* pathfinder -/

/-- The eight move directions, in the source's order. -/
def directions : List Point := [(1, 0), (-1, 0), (0, 1), (0, -1), (1, 1), (1, -1), (-1, 1), (-1, -1)]

/-- The four cardinal directions (base move cost 1). -/
def cardinals : List Point := [(1, 0), (-1, 0), (0, 1), (0, -1)]

/-- Octile-distance heuristic of the source, `D = 1`, `D2 = 1.414`. -/
def heuristic (a b : Point) : ℚ :=
  let D : ℚ := 1
  let D2 : ℚ := 1.414
  let dx : ℚ := ((a.1 - b.1).natAbs : ℚ)
  let dy : ℚ := ((a.2 - b.2).natAbs : ℚ)
  D * (dx + dy) + (D2 - 2 * D) * min dx dy

/-- The additive cost map: `Σ_name masks[name] * cost_multipliers[name]`,
evaluated at column `x`, row `y`. -/
def cost_map (masks : List (String × Mask)) (mults : String → ℚ) (x y : ℤ) : ℚ :=
  masks.foldl (fun acc nm => acc + cellZ nm.2 x y * mults nm.1) 0

/-- The `"zero"` mask, whose shape provides `rows, cols`. -/
def zeroMask (masks : List (String × Mask)) : Mask :=
  (((masks.find? (fun nm => nm.1 == "zero")).map (·.2)).getD [])

/-- The search state: the priority queue (a list; insertion appends, removal
extracts the minimum, modelling the binary heap of `queue.PriorityQueue`),
the `costs` and `came_from` dicts (association lists, newest binding first),
and two traces recording every insertion and every removal. -/
structure AState where
  queue : List (ℚ × Point)
  costs : List (Point × ℚ)
  cameFrom : List (Point × Option Point)
  puts : List (ℚ × Point)
  pops : List (ℚ × Point)
deriving Repr

/-- Dict lookup in an association list (first binding wins). -/
def alookup {β : Type} (l : List (Point × β)) (k : Point) : Option β :=
  (l.find? (fun kv => kv.1 == k)).map (·.2)

/-- Python's lexicographic comparison on queue entries
`(priority, (x, y))` — how the heap of `queue.PriorityQueue` orders them. -/
def entryLe (a b : ℚ × Point) : Bool :=
  decide (a.1 < b.1) || (decide (a.1 = b.1) &&
    (decide (a.2.1 < b.2.1) || (decide (a.2.1 = b.2.1) && decide (a.2.2 ≤ b.2.2))))

/-- The least entry of a nonempty queue under `entryLe`, earliest first
among equals. -/
def selectMin (e : ℚ × Point) : List (ℚ × Point) → ℚ × Point
  | [] => e
  | f :: rest => if entryLe e f then selectMin e rest else selectMin f rest

/-- `queue.get()`: remove and return the least entry. -/
def getMin : List (ℚ × Point) → Option ((ℚ × Point) × List (ℚ × Point))
  | [] => none
  | e :: rest =>
      let m := selectMin e rest
      some (m, (e :: rest).erase m)

/-- Walk `came_from` from `cur` back to the start (whose stored parent is
`none`), producing the path in start-to-goal order; the fuel bounds the
chain length (the caller passes one more than the dict size, enough for any
cycle-free chain). -/
def reconstruct : ℕ → List (Point × Option Point) → Point → Option (List Point)
  | 0, _, _ => none
  | fuel + 1, cf, cur =>
    match alookup cf cur with
    | none => none
    | some none => some [cur]
    | some (some prev) => (reconstruct fuel cf prev).map (fun path => path ++ [cur])

/-- Relax one direction out of `cur`: bounds-check the neighbor, compute
`move_cost = base * cost_map[neighbor]`, and if the neighbor is new or
strictly improved, update `costs`/`came_from` and push
`(new_cost + heuristic, neighbor)`. -/
def exploreDir (cm : ℤ → ℤ → ℚ) (rows cols : ℕ) (goal cur : Point) (s : AState)
    (d : Point) : AState :=
  let neighbor : Point := (cur.1 + d.1, cur.2 + d.2)
  if 0 ≤ neighbor.1 ∧ neighbor.1 < (cols : ℤ) ∧ 0 ≤ neighbor.2 ∧ neighbor.2 < (rows : ℤ) then
    let base : ℚ := if d ∈ cardinals then 1 else 1.414
    let move_cost := base * cm neighbor.1 neighbor.2
    let new_cost := (alookup s.costs cur).getD 0 + move_cost
    let doUpd : Bool :=
      match alookup s.costs neighbor with
      | none => true
      | some c => decide (new_cost < c)
    if doUpd then
      let priority := new_cost + heuristic neighbor goal
      { s with
        costs := (neighbor, new_cost) :: s.costs,
        queue := s.queue ++ [(priority, neighbor)],
        puts := s.puts ++ [(priority, neighbor)],
        cameFrom := (neighbor, some cur) :: s.cameFrom }
    else s
  else s

/-- The A* main loop, fuel-indexed: pop the least entry; if it is the goal,
reconstruct; otherwise relax all eight directions and continue. -/
def astarLoop (cm : ℤ → ℤ → ℚ) (rows cols : ℕ) (goal : Point) :
    ℕ → AState → Option (List Point) × AState
  | 0, s => (none, s)
  | fuel + 1, s =>
    match getMin s.queue with
    | none => (none, s)
    | some (e, rest) =>
      let cur := e.2
      let s1 : AState := { s with queue := rest, pops := s.pops ++ [e] }
      if cur = goal then (reconstruct (s1.cameFrom.length + 1) s1.cameFrom cur, s1)
      else astarLoop cm rows cols goal fuel (directions.foldl (exploreDir cm rows cols goal cur) s1)

/-- The initial search state: queue `[(0, start)]`, `costs = {start: 0}`,
`came_from = {start: None}`. -/
def initState (start : Point) : AState :=
  { queue := [(0, start)], costs := [(start, 0)], cameFrom := [(start, none)],
    puts := [(0, start)], pops := [] }

/-- `astar(start, goal, masks, cost_multipliers)` together with its final
state (for the trace claims). -/
def astarFull (start goal : Point) (masks : List (String × Mask)) (mults : String → ℚ)
    (fuel : ℕ) : Option (List Point) × AState :=
  let z := zeroMask masks
  astarLoop (cost_map masks mults) (maskRows z) (maskCols z) goal fuel (initState start)

/-- `astar` proper: `some path` or the distinguished not-found value `none`. -/
def astar (start goal : Point) (masks : List (String × Mask)) (mults : String → ℚ)
    (fuel : ℕ) : Option (List Point) :=
  (astarFull start goal masks mults fuel).1

/-! ### Specification-side notions for the pathfinder -/

/-- In-bounds predicate of the search grid. -/
def inBounds (rows cols : ℕ) (p : Point) : Prop :=
  0 ≤ p.1 ∧ p.1 < (cols : ℤ) ∧ 0 ≤ p.2 ∧ p.2 < (rows : ℤ)

instance (rows cols : ℕ) (p : Point) : Decidable (inBounds rows cols p) :=
  inferInstanceAs (Decidable (0 ≤ p.1 ∧ p.1 < (cols : ℤ) ∧ 0 ≤ p.2 ∧ p.2 < (rows : ℤ)))

/-- Base cost of a move vector: 1 if cardinal, 1.414 otherwise (as in the
source's `move_cost` selection). -/
def baseCost (d : Point) : ℚ := if d ∈ cardinals then 1 else 1.414

/-- Cost of the single step `a → b`: base cost times the destination cell's
cost-map value. -/
def stepCost (cm : ℤ → ℤ → ℚ) (a b : Point) : ℚ :=
  baseCost (b.1 - a.1, b.2 - a.2) * cm b.1 b.2

/-- Cumulative cost of a point sequence under the source's cost model. -/
def pathCost (cm : ℤ → ℤ → ℚ) : List Point → ℚ
  | [] => 0
  | [_] => 0
  | a :: b :: rest => stepCost cm a b + pathCost cm (b :: rest)

/-- An 8-connected grid path from `start` to `goal`: nonempty, endpoints as
given, every node in bounds, every consecutive displacement one of the
eight unit moves. -/
def ValidPath (rows cols : ℕ) (start goal : Point) (p : List Point) : Prop :=
  p.head? = some start ∧ p.getLast? = some goal ∧
  (∀ q ∈ p, inBounds rows cols q) ∧
  List.Chain' (fun a b => (b.1 - a.1, b.2 - a.2) ∈ directions) p

/-- Executable check of the consecutive-move condition of `ValidPath`. -/
def chainDirB : List Point → Bool
  | [] => true
  | [_] => true
  | a :: b :: rest => decide ((b.1 - a.1, b.2 - a.2) ∈ directions) && chainDirB (b :: rest)

theorem chainDirB_iff (p : List Point) :
    chainDirB p = true ↔
      List.Chain' (fun (a b : Point) => (b.1 - a.1, b.2 - a.2) ∈ directions) p := by
  induction p with
  | nil => simp [chainDirB]
  | cons a tl ih =>
      cases tl with
      | nil => simp [chainDirB]
      | cons b rest =>
          rw [List.chain'_cons]
          unfold chainDirB
          rw [Bool.and_eq_true, decide_eq_true_eq, ih]

instance (rows cols : ℕ) (start goal : Point) (p : List Point) :
    Decidable (ValidPath rows cols start goal p) :=
  decidable_of_iff (p.head? = some start ∧ p.getLast? = some goal ∧
    (∀ q ∈ p, inBounds rows cols q) ∧ chainDirB p = true)
    (by unfold ValidPath; rw [chainDirB_iff])

/-! ## Generic helper lemmas -/

theorem foldl_invariant {α β : Type} (f : β → α → β) (P : β → Prop) (l : List α) :
    ∀ init, P init → (∀ b a, a ∈ l → P b → P (f b a)) → P (l.foldl f init) := by
  induction l with
  | nil => intro init h0 _; exact h0
  | cons a l ih =>
      intro init h0 hstep
      exact ih (f init a) (hstep init a (by simp) h0)
        (fun b a' ha' hb => hstep b a' (by simp [ha']) hb)

/-! ## Claim C3: pairwise clearance of placed buildings -/

/-- `plot_overlap` is `false` exactly when the rectangles are separated by
at least `d` pixels along the x-axis or along the y-axis. -/
theorem plot_overlap_eq_false_iff (r1 r2 : ℕ × ℕ × ℕ × ℕ) (d : ℕ) :
    plot_overlap r1 r2 d = false ↔
      (r1.1 + r1.2.2.1 + d ≤ r2.1 ∨ r2.1 + r2.2.2.1 + d ≤ r1.1 ∨
       r1.2.1 + r1.2.2.2 + d ≤ r2.2.1 ∨ r2.2.1 + r2.2.2.2 + d ≤ r1.2.1) := by
  obtain ⟨x1, y1, w1, h1⟩ := r1
  obtain ⟨x2, y2, w2, h2⟩ := r2
  simp only [plot_overlap, Bool.not_eq_false', Bool.or_eq_true, decide_eq_true_eq]
  omega

theorem plot_overlap_symm (r1 r2 : ℕ × ℕ × ℕ × ℕ) (d : ℕ)
    (h : plot_overlap r1 r2 d = false) : plot_overlap r2 r1 d = false := by
  rw [plot_overlap_eq_false_iff] at h ⊢
  tauto

/-- The clearance relation asserted by claim C3 between two placed
buildings: no overlap under margin 10, equivalently ≥ 10 pixels of
separation along one axis. -/
def clearApart (a b : Placed) : Prop :=
  plot_overlap a.rect b.rect 10 = false ∧
    (a.rect.1 + a.rect.2.2.1 + 10 ≤ b.rect.1 ∨ b.rect.1 + b.rect.2.2.1 + 10 ≤ a.rect.1 ∨
     a.rect.2.1 + a.rect.2.2.2 + 10 ≤ b.rect.2.1 ∨ b.rect.2.1 + b.rect.2.2.2 + 10 ≤ a.rect.2.1)

theorem placeOne_pairwise (masks : String → Mask) (st : List Placed × Mask) (b : Blueprint)
    (h : List.Pairwise clearApart st.1) :
    List.Pairwise clearApart (placeOne masks st b).1 := by
  unfold placeOne
  dsimp only
  split
  · exact h
  · next p hf =>
      show List.Pairwise clearApart (st.1 ++ [⟨b.name, (p.2, p.1, b.size.1, b.size.2)⟩])
      rw [List.pairwise_append]
      refine ⟨h, by simp, ?_⟩
      intro a ha b' hb'
      have hfeas := List.find?_some hf
      unfold feasible at hfeas
      simp only [Bool.and_eq_true, List.all_eq_true] at hfeas
      have hov := hfeas.2 a ha
      simp only [Bool.not_eq_true', List.mem_singleton] at hb' hov
      subst hb'
      have hsym : plot_overlap a.rect (p.2, p.1, b.size.1, b.size.2) 10 = false :=
        plot_overlap_symm _ _ _ hov
      exact ⟨hsym, (plot_overlap_eq_false_iff _ _ _).mp hsym⟩

/-- **C3** (confirmed).  After any run of `place_buildings`, every pair of
distinct placed buildings passes the `__plot_overlap__` test with the
clearance margin `minDistance = 10` — equivalently, the two rectangles are
separated by at least 10 pixels along the x-axis or along the y-axis. -/
theorem C3_place_buildings_clearance (blueprints : List Blueprint) (amounts : String → ℕ)
    (masks : String → Mask) :
    List.Pairwise clearApart (place_buildings blueprints amounts masks).1 := by
  unfold place_buildings
  have := foldl_invariant (placeOne masks) (fun st => List.Pairwise clearApart st.1)
    ((blueprints.map (fun b => List.replicate (amounts b.name) b)).flatten)
    ([], zerosLike (masks "zero")) (by simp) (fun st b _ hp => placeOne_pairwise masks st b hp)
  exact this

/-! ## Claim C2: candidate enumeration order -/

/-- The `argwhere` list of the counterexample mask used for claim C2. -/
def mask_c2 : Mask := [[1, 0, 0, 1], [0, 0, 0, 1]]

unseal Rat.add Rat.mul Rat.sub Rat.ofScientific Rat.inv in
/-- **C2, counterexample.**  On `mask_c2` the centroid is `(cx, cy) = (2, 0)`
and the solver enumerates `[(0,0), (1,3), (0,3)]` (as `(row, col)` pairs),
whose true squared distances to the centroid are `4, 2, 1`: the enumeration
is *not* ascending in the Euclidean distance to the centroid, and the first
candidate tried is strictly farther from the centroid than later ones. -/
theorem C2_counterexample :
    get_mask_centroid mask_c2 = some (2, 0) ∧
    candidate_order mask_c2 = [(0, 0), (1, 3), (0, 3)] ∧
    centroid_dist2 (2, 0) (1, 3) < centroid_dist2 (2, 0) (0, 0) ∧
    ¬ List.Sorted (fun p q => centroid_dist2 (2, 0) p ≤ centroid_dist2 (2, 0) q)
        (candidate_order mask_c2) := by
  refine ⟨by decide, by decide, by decide, ?_⟩
  intro hs
  rw [show candidate_order mask_c2 = [(0, 0), (1, 3), (0, 3)] from by decide] at hs
  have h01 : centroid_dist2 (2, 0) (0, 0) ≤ centroid_dist2 (2, 0) (1, 3) :=
    List.rel_of_sorted_cons hs _ (by simp)
  exact absurd h01 (by decide)

/-- **C2, amended** (the sort key crosses the coordinates).  For every mask
with a defined centroid `(cx, cy)`, `place_buildings` enumerates exactly the
occupied pixels (a permutation of the row-major `argwhere` list), in
ascending order of `√((y − cx)² + (x − cy)²)` for a pixel in row `y` and
column `x` — the Euclidean distance from the `(row, col)` pair to the
centroid read with its coordinates *crossed*, not the distance to the
centroid itself. -/
theorem C2_candidate_order (g : Mask) (c : ℤ × ℤ)
    (h : get_mask_centroid g = some c) :
    (candidate_order g).Perm (argwherePos g) ∧
    List.Sorted (fun p q => code_key c p ≤ code_key c q) (candidate_order g) := by
  unfold candidate_order
  rw [h]
  haveI h1 : IsTotal (ℕ × ℕ) (fun p q => code_key c p ≤ code_key c q) :=
    ⟨fun _ _ => le_total _ _⟩
  haveI h2 : IsTrans (ℕ × ℕ) (fun p q => code_key c p ≤ code_key c q) :=
    ⟨fun _ _ _ hab hbc => le_trans hab hbc⟩
  exact ⟨List.perm_insertionSort _ _, List.sorted_insertionSort _ _⟩

unseal Rat.add Rat.mul Rat.sub Rat.ofScientific Rat.inv in
/-- Witness for `C2_candidate_order` at the concrete mask `mask_c2`. -/
theorem C2_candidate_order_witness :
    (candidate_order mask_c2).Perm (argwherePos mask_c2) ∧
    List.Sorted (fun p q => code_key (2, 0) p ≤ code_key (2, 0) q)
      (candidate_order mask_c2) :=
  C2_candidate_order mask_c2 (2, 0) (by decide)

/-! ## Claim C8: empty zone mask is a soft skip -/

theorem maskMoments_zero (g : Mask) (h : ∀ row ∈ g, ∀ v ∈ row, v = 0) :
    maskMoments g = (0, 0, 0) := by
  unfold maskMoments
  refine foldl_invariant _ (fun acc => acc = (0, 0, 0)) _ _ rfl ?_
  intro acc yrow hyrow hacc
  have hrow : yrow.2 ∈ g := by
    have := List.mem_enum hyrow
    exact List.mem_iff_get.mpr ⟨⟨yrow.1, this.1⟩, by simpa using this.2.symm⟩
  refine foldl_invariant _ (fun acc2 => acc2 = (0, 0, 0)) _ _ hacc ?_
  intro acc2 xv hxv hacc2
  have hv : xv.2 = 0 := by
    have hm := List.mem_enum hxv
    exact h yrow.2 hrow xv.2 (List.mem_iff_get.mpr ⟨⟨xv.1, hm.1⟩, by simpa using hm.2.symm⟩)
  simp [hacc2, hv]

/-- **C8** (confirmed).  If a building's eligible zone mask has no occupied
pixel (all cells are 0, the `uint8` reading of "zero occupied pixels"),
then `get_mask_centroid` returns `none` rather than dividing by zero, and
`place_buildings`'s per-building step leaves the state untouched: the
building is recorded in no output list and no occupancy is stamped. -/
theorem C8_empty_mask_skip (g : Mask) (h : ∀ row ∈ g, ∀ v ∈ row, v = 0) :
    get_mask_centroid g = none ∧
    ∀ (masks : String → Mask) (st : List Placed × Mask) (b : Blueprint),
      masks b.location = g → placeOne masks st b = st := by
  have hm := maskMoments_zero g h
  have hcen : get_mask_centroid g = none := by
    unfold get_mask_centroid
    rw [hm]
    simp
  refine ⟨hcen, ?_⟩
  intro masks st b hloc
  unfold placeOne
  dsimp only
  rw [hloc]
  unfold candidate_order
  rw [hcen]
  rfl

/-- Witness for `C8_empty_mask_skip` on a concrete 2×2 all-zero mask. -/
theorem C8_empty_mask_skip_witness :
    get_mask_centroid [[0, 0], [0, 0]] = none ∧
    ∀ (masks : String → Mask) (st : List Placed × Mask) (b : Blueprint),
      masks b.location = [[0, 0], [0, 0]] → placeOne masks st b = st :=
  C8_empty_mask_skip [[0, 0], [0, 0]] (by decide)

end Cartography

namespace Cartography

/-! ## Claim C4: the empty-circumcircle characterization of `custom_delaunay` -/

theorem mem_addEdge {es : List (ℕ × ℕ)} {e f : ℕ × ℕ} :
    e ∈ addEdge es f ↔ e ∈ es ∨ e = f := by
  unfold addEdge
  split
  · next hf => constructor
               · exact Or.inl
               · rintro (h | rfl)
                 · exact h
                 · exact hf
  · simp

theorem drop_range_eq {n m : ℕ} (h : m ≤ n) :
    (List.range n).drop m = List.range' m (n - m) := by
  rw [List.range_eq_range']
  have happ : List.range' 0 m ++ List.range' m (n - m) = List.range' 0 n := by
    have := List.range'_append_1 0 m (n - m)
    simpa [Nat.sub_add_cancel h] using this
  have hlen : (List.range' 0 m).length = m := by simp
  rw [← happ, List.drop_left' hlen]

theorem mem_drop_range {n m j : ℕ} : j ∈ (List.range n).drop m ↔ m ≤ j ∧ j < n := by
  rcases le_or_lt m n with h | h
  · rw [drop_range_eq h, List.mem_range']
    constructor
    · rintro ⟨i, hi, rfl⟩; omega
    · intro hj; exact ⟨j - m, by omega, by omega⟩
  · rw [List.drop_eq_nil_of_le (by simpa using h.le)]
    simp
    omega

theorem mem_tripleList {n i j k : ℕ} :
    (i, j, k) ∈ tripleList n ↔ i < j ∧ j < k ∧ k < n := by
  unfold tripleList
  simp only [List.mem_flatMap, List.mem_map, List.mem_range]
  constructor
  · rintro ⟨i', hi', j', hj', k', hk', heq⟩
    obtain ⟨rfl, rfl, rfl⟩ : i' = i ∧ j' = j ∧ k' = k := by
      simpa [Prod.ext_iff] using heq
    have h1 := mem_drop_range.mp hj'
    have h2 := mem_drop_range.mp hk'
    exact ⟨by omega, by omega, h2.2⟩
  · rintro ⟨hij, hjk, hkn⟩
    exact ⟨i, by omega, j, mem_drop_range.mpr ⟨by omega, by omega⟩,
      ⟨k, mem_drop_range.mpr ⟨by omega, by omega⟩, rfl⟩⟩

/-- The three directed pairs a valid triple `(i, j, k)` contributes. -/
def tripleEdges (t : ℕ × ℕ × ℕ) : List (ℕ × ℕ) := [(t.1, t.2.1), (t.2.1, t.2.2), (t.2.2, t.1)]

theorem mem_delaunay_fold (points : List QPoint) (ts : List (ℕ × ℕ × ℕ)) (e : ℕ × ℕ) :
    ∀ acc, (e ∈ ts.foldl (fun es t =>
      if tripleValid points t.1 t.2.1 t.2.2 then
        addEdge (addEdge (addEdge es (t.1, t.2.1)) (t.2.1, t.2.2)) (t.2.2, t.1)
      else es) acc ↔
      e ∈ acc ∨ ∃ t ∈ ts, tripleValid points t.1 t.2.1 t.2.2 = true ∧ e ∈ tripleEdges t) := by
  induction ts with
  | nil => simp
  | cons t ts ih =>
      intro acc
      rw [List.foldl_cons, ih]
      by_cases hv : tripleValid points t.1 t.2.1 t.2.2 = true
      · simp only [hv, if_pos, mem_addEdge, tripleEdges]
        constructor
        · rintro ((((h | rfl) | rfl) | rfl) | ⟨t', ht', hv', he'⟩)
          · exact Or.inl h
          · exact Or.inr ⟨t, by simp, hv, by simp [tripleEdges]⟩
          · exact Or.inr ⟨t, by simp, hv, by simp [tripleEdges]⟩
          · exact Or.inr ⟨t, by simp, hv, by simp [tripleEdges]⟩
          · exact Or.inr ⟨t', by simp [ht'], hv', he'⟩
        · rintro (h | ⟨t', ht', hv', he'⟩)
          · exact Or.inl (Or.inl (Or.inl (Or.inl h)))
          · rcases List.mem_cons.mp ht' with heq | ht'
            · subst heq
              simp only [tripleEdges, List.mem_cons, List.not_mem_nil, or_false] at he'
              rcases he' with he' | he' | he'
              · exact Or.inl (Or.inl (Or.inl (Or.inr he')))
              · exact Or.inl (Or.inl (Or.inr he'))
              · exact Or.inl (Or.inr he')
            · exact Or.inr ⟨t', ht', hv', he'⟩
      · simp only [if_neg hv]
        constructor
        · rintro (h | ⟨t', ht', hv', he'⟩)
          · exact Or.inl h
          · exact Or.inr ⟨t', by simp [ht'], hv', he'⟩
        · rintro (h | ⟨t', ht', hv', he'⟩)
          · exact Or.inl h
          · rcases List.mem_cons.mp ht' with heq | ht'
            · subst heq
              exact absurd hv' hv
            · exact Or.inr ⟨t', ht', hv', he'⟩

/-- **C4** (confirmed).  An ordered pair belongs to the output of
`custom_delaunay` iff some triple `i < j < k` of input indices is *valid* —
its circumcircle is defined (nonzero orientation determinant) and no other
input point lies strictly inside it — and the pair is one of the three
pairs `(i,j)`, `(j,k)`, `(k,i)` the triple contributes.  Degenerate
(collinear) triples have `get_circumcircle = none`, are skipped without
raising, and contribute no edges. -/
theorem C4_custom_delaunay_characterization (points : List QPoint) :
    (∀ e, e ∈ custom_delaunay points ↔
      ∃ i j k, i < j ∧ j < k ∧ k < points.length ∧ tripleValid points i j k = true ∧
        (e = (i, j) ∨ e = (j, k) ∨ e = (k, i))) ∧
    (∀ i j k, tripleValid points i j k = true ↔
      ∃ c r2, get_circumcircle (points.getD i (0, 0)) (points.getD j (0, 0))
          (points.getD k (0, 0)) = some (c, r2) ∧
        ∀ m, m < points.length → m ≠ i → m ≠ j → m ≠ k →
          ¬ dist2 (points.getD m (0, 0)) c < r2) := by
  constructor
  · intro e
    unfold custom_delaunay
    rw [mem_delaunay_fold]
    simp only [List.not_mem_nil, false_or]
    constructor
    · rintro ⟨t, ht, hv, he⟩
      obtain ⟨i, j, k⟩ := t
      obtain ⟨hij, hjk, hkn⟩ := mem_tripleList.mp ht
      refine ⟨i, j, k, hij, hjk, hkn, hv, ?_⟩
      simpa [tripleEdges] using he
    · rintro ⟨i, j, k, hij, hjk, hkn, hv, he⟩
      exact ⟨(i, j, k), mem_tripleList.mpr ⟨hij, hjk, hkn⟩, hv, by
        simpa [tripleEdges] using he⟩
  · intro i j k
    unfold tripleValid
    cases hc : get_circumcircle (points.getD i (0, 0)) (points.getD j (0, 0))
        (points.getD k (0, 0)) with
    | none => simp
    | some cr =>
        simp only [List.all_eq_true, List.mem_range, Option.some.injEq]
        constructor
        · intro hall
          refine ⟨cr.1, cr.2, by simp, ?_⟩
          intro m hm hmi hmj hmk
          have := hall m hm
          rw [if_pos ⟨hmi, hmj, hmk⟩] at this
          simpa using this
        · rintro ⟨c, r2, hcr, hfar⟩
          obtain ⟨rfl, rfl⟩ : cr.1 = c ∧ cr.2 = r2 := by
            have : cr = (c, r2) := by simpa [Prod.ext_iff] using hcr
            simp [this]
          intro m hm
          split
          · next hne => simpa using hfar m hm hne.1 hne.2.1 hne.2.2
          · rfl

end Cartography

namespace Cartography

/-! ## Claim C10: start equal to goal -/

/-- **C10** (confirmed).  For every mask dictionary and multiplier
configuration, calling `astar` with `start = goal` (and any positive fuel)
returns the single-element path `[start]` immediately: the only queue
insertion ever made is the initial `(0, start)` and the only pop is that
entry, so no neighbor is expanded and no cost-map value is read. -/
theorem C10_start_eq_goal (start : Point) (masks : List (String × Mask))
    (mults : String → ℚ) (fuel : ℕ) :
    astar start start masks mults (fuel + 1) = some [start] ∧
    (astarFull start start masks mults (fuel + 1)).2.puts = [(0, start)] ∧
    (astarFull start start masks mults (fuel + 1)).2.pops = [(0, start)] := by
  refine ⟨?_, ?_, ?_⟩ <;>
    simp [astar, astarFull, astarLoop, initState, getMin, selectMin, reconstruct, alookup]

/-! ## Claim C9: the open-set pop order -/

theorem entryLe_refl (a : ℚ × Point) : entryLe a a = true := by
  simp [entryLe]

theorem entryLe_total (a b : ℚ × Point) : entryLe a b = true ∨ entryLe b a = true := by
  unfold entryLe
  simp only [Bool.or_eq_true, Bool.and_eq_true, decide_eq_true_eq]
  rcases lt_trichotomy a.1 b.1 with h | h | h
  · exact Or.inl (Or.inl h)
  · rcases lt_trichotomy a.2.1 b.2.1 with h2 | h2 | h2
    · exact Or.inl (Or.inr ⟨h, Or.inl h2⟩)
    · rcases le_total a.2.2 b.2.2 with h3 | h3
      · exact Or.inl (Or.inr ⟨h, Or.inr ⟨h2, h3⟩⟩)
      · exact Or.inr (Or.inr ⟨h.symm, Or.inr ⟨h2.symm, h3⟩⟩)
    · exact Or.inr (Or.inr ⟨h.symm, Or.inl h2⟩)
  · exact Or.inr (Or.inl h)

theorem entryLe_trans {a b c : ℚ × Point} (hab : entryLe a b = true)
    (hbc : entryLe b c = true) : entryLe a c = true := by
  unfold entryLe at hab hbc ⊢
  simp only [Bool.or_eq_true, Bool.and_eq_true, decide_eq_true_eq] at hab hbc ⊢
  rcases hab with h1 | ⟨h1, h1'⟩ <;> rcases hbc with h2 | ⟨h2, h2'⟩
  · exact Or.inl (h1.trans h2)
  · exact Or.inl (h2 ▸ h1)
  · exact Or.inl (h1 ▸ h2)
  · refine Or.inr ⟨h1.trans h2, ?_⟩
    rcases h1' with h3 | ⟨h3, h3'⟩ <;> rcases h2' with h4 | ⟨h4, h4'⟩
    · exact Or.inl (h3.trans h4)
    · exact Or.inl (h4 ▸ h3)
    · exact Or.inl (h3 ▸ h4)
    · exact Or.inr ⟨h3.trans h4, h3'.trans h4'⟩

theorem selectMin_mem (x : ℚ × Point) : ∀ xs, selectMin x xs ∈ x :: xs := by
  intro xs
  induction xs generalizing x with
  | nil => simp [selectMin]
  | cons f rest ih =>
      unfold selectMin
      split
      · rcases List.mem_cons.mp (ih x) with h | h
        · simp [h]
        · simp [h]
      · rcases List.mem_cons.mp (ih f) with h | h
        · simp [h]
        · simp [h]

theorem selectMin_le (x : ℚ × Point) :
    ∀ xs, ∀ f ∈ x :: xs, entryLe (selectMin x xs) f = true := by
  intro xs
  induction xs generalizing x with
  | nil =>
      intro f hf
      have hfx : f = x := by simpa using hf
      rw [hfx]
      simp [selectMin, entryLe_refl]
  | cons g rest ih =>
      intro f hf
      unfold selectMin
      split
      · next hxg =>
          rcases List.mem_cons.mp hf with heq | hf'
          · rw [heq]
            exact ih x x (by simp)
          · rcases List.mem_cons.mp hf' with heq2 | hf''
            · rw [heq2]
              exact entryLe_trans (ih x x (by simp)) hxg
            · exact ih x f (by simp [hf''])
      · next hxg =>
          have hgx : entryLe g x = true :=
            (entryLe_total x g).resolve_left (by simpa using hxg)
          rcases List.mem_cons.mp hf with heq | hf'
          · rw [heq]
            exact entryLe_trans (ih g g (by simp)) hgx
          · exact ih g f hf'

/-- **C9, amended.**  The queue pop of `astar` removes an entry that is
lexicographically least in `(f, position)` — entries are ordered by
`f = g + h` first, and entries with *equal* `f` are ordered by Python's
tuple comparison of their `(x, y)` positions, not by insertion order. -/
theorem C9_pop_is_lex_min (q : List (ℚ × Point)) (e : ℚ × Point)
    (rest : List (ℚ × Point)) (h : getMin q = some (e, rest)) :
    e ∈ q ∧ (∀ f ∈ q, entryLe e f = true) ∧ rest = q.erase e := by
  cases q with
  | nil => simp [getMin] at h
  | cons x xs =>
      unfold getMin at h
      simp only [Option.some.injEq, Prod.mk.injEq] at h
      obtain ⟨rfl, rfl⟩ := h
      exact ⟨selectMin_mem x xs, selectMin_le x xs, rfl⟩

/-- Witness for `C9_pop_is_lex_min` on a two-entry queue with equal
priorities: the pop takes the entry with the smaller position tuple. -/
theorem C9_pop_is_lex_min_witness :
    ((1 : ℚ), ((0 : ℤ), (0 : ℤ))) ∈ [((1 : ℚ), ((1 : ℤ), (0 : ℤ))), (1, (0, 0))] ∧
    (∀ f ∈ [((1 : ℚ), ((1 : ℤ), (0 : ℤ))), (1, (0, 0))], entryLe (1, (0, 0)) f = true) ∧
    [((1 : ℚ), ((1 : ℤ), (0 : ℤ)))] = [((1 : ℚ), ((1 : ℤ), (0 : ℤ))), (1, (0, 0))].erase (1, (0, 0)) :=
  C9_pop_is_lex_min [(1, (1, 0)), (1, (0, 0))] (1, (0, 0)) [(1, (1, 0))] (by decide)

/-- The 3×3 all-ones base mask of the tie-breaking scenario. -/
def ones3 : Mask := [[1, 1, 1], [1, 1, 1], [1, 1, 1]]

/-- One marked cell at `(x, y) = (1, 1)` for the extra-cost zone. -/
def midCell : Mask := [[0, 0, 0], [0, 1, 0], [0, 0, 0]]

/-- Masks of the tie-breaking scenario: uniform cost 1 with cost 50 at the
center cell. -/
def masks_c9 : List (String × Mask) := [("zero", ones3), ("mid", midCell)]

/-- Multipliers of the tie-breaking scenario. -/
def mults_c9 : String → ℚ := fun n => if n = "mid" then 49 else 1

unseal Rat.add Rat.mul Rat.sub Rat.ofScientific Rat.inv in
/-- **C9, counterexample.**  Running `astar` from `(1,0)` to `(1,2)` on the
3×3 grid with cost 50 at the center: the entries `(2.828, (2,1))` and
`(2.828, (0,1))` both enter the open set with the same `f = 2.828`
(`= 707/250`), the `(2,1)` entry strictly earlier (insertion indices 4 and
5 of the `puts` trace); yet `(0,1)` is popped (second pop) while the
earlier-inserted `(2,1)` is never popped at all — insertion order does not
break the tie. -/
theorem C9_counterexample :
    (astarFull (1, 0) (1, 2) masks_c9 mults_c9 10).2.puts =
      [(0, (1, 0)), (1707/500, (2, 0)), (1707/500, (0, 0)), (51, (1, 1)),
       (707/250, (2, 1)), (707/250, (0, 1)), (1707/500, (0, 2)), (707/250, (1, 2))] ∧
    (astarFull (1, 0) (1, 2) masks_c9 mults_c9 10).2.pops =
      [(0, (1, 0)), (707/250, (0, 1)), (707/250, (1, 2))] ∧
    (707/250, ((2 : ℤ), (1 : ℤ))) ∉ (astarFull (1, 0) (1, 2) masks_c9 mults_c9 10).2.pops ∧
    (707/250, ((0 : ℤ), (1 : ℤ))) ∈ (astarFull (1, 0) (1, 2) masks_c9 mults_c9 10).2.pops := by
  refine ⟨?_, ?_, ?_, ?_⟩ <;> decide

end Cartography

namespace Cartography

/-! ## Claim C6: the four-corner end-to-end scenario -/

/-- Four degenerate (zero-size) buildings whose centers are the corners
`(0,0)`, `(10,0)`, `(0,10)`, `(10,10)`. -/
def corner_buildings : List Placed :=
  [⟨"a", (0, 0, 0, 0)⟩, ⟨"b", (10, 0, 0, 0)⟩, ⟨"c", (0, 10, 0, 0)⟩, ⟨"d", (10, 10, 0, 0)⟩]

unseal Rat.add Rat.mul Rat.sub Rat.ofScientific Rat.inv in
/-- **C6** (confirmed).  On the four corner centers the topology generator
returns exactly 3 edges — the index pairs `(0,1)`, `(0,2)`, `(1,3)`, i.e.
three sides of the square, resolved to their coordinates — forming a
spanning tree of total Euclidean weight `3 · √100 = 30`; neither diagonal
(`(0,3)` or `(1,2)`, length `√200 ≈ 14.14`) is included. -/
theorem C6_four_corner_topology :
    generate_path_tree corner_buildings none =
      [((0, 0), (10, 0)), ((0, 0), (0, 10)), ((10, 0), (10, 10))] ∧
    path_tree_edges corner_buildings none = [(0, 1), (0, 2), (1, 3)] ∧
    ((path_tree_edges corner_buildings none).map (fun e =>
      Real.sqrt ((edgeW (building_centers corner_buildings) e : ℚ) : ℝ))).sum = 30 ∧
    ((0, 3) ∉ path_tree_edges corner_buildings none ∧
     (1, 2) ∉ path_tree_edges corner_buildings none) := by
  have hedges : path_tree_edges corner_buildings none = [(0, 1), (0, 2), (1, 3)] := by decide
  refine ⟨by decide, hedges, ?_, by decide, by decide⟩
  rw [hedges]
  have h1 : edgeW (building_centers corner_buildings) (0, 1) = 100 := by decide
  have h2 : edgeW (building_centers corner_buildings) (0, 2) = 100 := by decide
  have h3 : edgeW (building_centers corner_buildings) (1, 3) = 100 := by decide
  have hsqrt : Real.sqrt (100 : ℝ) = 10 := by
    rw [show ((100 : ℝ)) = 10 ^ 2 by norm_num, Real.sqrt_sq (by norm_num)]
  simp only [h1, h2, h3, List.map_cons, List.map_nil, List.sum_cons, List.sum_nil]
  norm_num [hsqrt]

end Cartography

namespace Cartography

/-! ## A* machinery: dictionary, heuristic and path lemmas -/

theorem alookup_cons {β : Type} (k : Point) (v : β) (l : List (Point × β)) (k' : Point) :
    alookup ((k, v) :: l) k' = if k = k' then some v else alookup l k' := by
  unfold alookup
  rcases eq_or_ne k k' with h | h
  · simp [List.find?_cons, h]
  · simp only [List.find?_cons]
    have : ((k, v).1 == k') = false := by simpa using h
    simp [this, h]

theorem heuristic_self (a : Point) : heuristic a a = 0 := by
  simp [heuristic]

theorem heuristic_nonneg (a b : Point) : 0 ≤ heuristic a b := by
  unfold heuristic
  have h1 : (0 : ℚ) ≤ ((a.1 - b.1).natAbs : ℚ) := by positivity
  have h2 : (0 : ℚ) ≤ ((a.2 - b.2).natAbs : ℚ) := by positivity
  have h3 := min_le_left ((a.1 - b.1).natAbs : ℚ) ((a.2 - b.2).natAbs : ℚ)
  have h4 := min_le_right ((a.1 - b.1).natAbs : ℚ) ((a.2 - b.2).natAbs : ℚ)
  norm_num
  linarith

theorem natAbs_triangle_q (x y : ℤ) :
    (((x + y).natAbs : ℚ)) ≤ ((x.natAbs : ℚ)) + ((y.natAbs : ℚ)) := by
  have := Int.natAbs_add_le x y
  exact_mod_cast this

/-- Octile triangle inequality: the heuristic is a metric-style lower-bound
estimate, subadditive along intermediate points. -/
theorem heuristic_triangle (a b c : Point) :
    heuristic a c ≤ heuristic a b + heuristic b c := by
  unfold heuristic
  have k1 : (((a.1 - c.1).natAbs : ℚ)) ≤
      (((a.1 - b.1).natAbs : ℚ)) + (((b.1 - c.1).natAbs : ℚ)) := by
    have := natAbs_triangle_q (a.1 - b.1) (b.1 - c.1)
    simpa [sub_add_sub_cancel] using this
  have k2 : (((a.2 - c.2).natAbs : ℚ)) ≤
      (((a.2 - b.2).natAbs : ℚ)) + (((b.2 - c.2).natAbs : ℚ)) := by
    have := natAbs_triangle_q (a.2 - b.2) (b.2 - c.2)
    simpa [sub_add_sub_cancel] using this
  have m1 := min_add_max (((a.1 - c.1).natAbs : ℚ)) (((a.2 - c.2).natAbs : ℚ))
  have m2 := min_add_max (((a.1 - b.1).natAbs : ℚ)) (((a.2 - b.2).natAbs : ℚ))
  have m3 := min_add_max (((b.1 - c.1).natAbs : ℚ)) (((b.2 - c.2).natAbs : ℚ))
  have x1 : max (((a.1 - c.1).natAbs : ℚ)) (((a.2 - c.2).natAbs : ℚ)) ≤
      max (((a.1 - b.1).natAbs : ℚ)) (((a.2 - b.2).natAbs : ℚ)) +
      max (((b.1 - c.1).natAbs : ℚ)) (((b.2 - c.2).natAbs : ℚ)) := by
    apply max_le
    · exact k1.trans (add_le_add (le_max_left _ _) (le_max_left _ _))
    · exact k2.trans (add_le_add (le_max_right _ _) (le_max_right _ _))
  norm_num
  linarith

/-- For a unit move `d`, the heuristic between a point and its `d`-neighbor
is exactly the base cost of `d`. -/
theorem heuristic_step (n : Point) (d : Point) (hd : d ∈ directions) :
    heuristic n (n.1 + d.1, n.2 + d.2) = baseCost d := by
  have h1 : n.1 - (n.1 + d.1) = -d.1 := by ring
  have h2 : n.2 - (n.2 + d.2) = -d.2 := by ring
  unfold heuristic baseCost
  rw [h1, h2]
  fin_cases hd <;> norm_num [cardinals, Prod.ext_iff]

theorem baseCost_nonneg (d : Point) : 0 ≤ baseCost d := by
  unfold baseCost
  split <;> norm_num

theorem baseCost_pos (d : Point) : 0 < baseCost d := by
  unfold baseCost
  split <;> norm_num

theorem directions_ne_zero {d : Point} (hd : d ∈ directions) : d ≠ (0, 0) := by
  fin_cases hd <;> decide

theorem pathCost_cons (cm : ℤ → ℤ → ℚ) (a b : Point) (rest : List Point) :
    pathCost cm (a :: b :: rest) = stepCost cm a b + pathCost cm (b :: rest) := rfl

theorem pathCost_append_last (cm : ℤ → ℤ → ℚ) (z : Point) :
    ∀ (p : List Point) (h : p ≠ []),
      pathCost cm (p ++ [z]) = pathCost cm p + stepCost cm (p.getLast h) z := by
  intro p
  induction p with
  | nil => intro h; exact absurd rfl h
  | cons a rest ih =>
      intro h
      cases rest with
      | nil => simp [pathCost, stepCost]
      | cons b rest' =>
          have hne : (b :: rest') ≠ [] := by simp
          calc pathCost cm ((a :: b :: rest') ++ [z])
              = stepCost cm a b + pathCost cm ((b :: rest') ++ [z]) := rfl
            _ = stepCost cm a b +
                (pathCost cm (b :: rest') + stepCost cm ((b :: rest').getLast hne) z) := by
                  rw [ih hne]
            _ = pathCost cm (a :: b :: rest') + stepCost cm ((a :: b :: rest').getLast h) z := by
                  rw [pathCost_cons]
                  have hg : (a :: b :: rest').getLast h = (b :: rest').getLast hne := by
                    simp [List.getLast_cons]
                  rw [hg]
                  ring

/-- Destructing a valid path with at least two nodes. -/
theorem validPath_cons {rows cols : ℕ} {n z : Point} {b : Point} {rest : List Point}
    (h : ValidPath rows cols n z (n :: b :: rest)) :
    ((b.1 - n.1, b.2 - n.2) ∈ directions) ∧ inBounds rows cols b ∧
      ValidPath rows cols b z (b :: rest) := by
  obtain ⟨hh, hl, hb, hc⟩ := h
  rw [List.chain'_cons] at hc
  refine ⟨hc.1, hb b (by simp), by simp, ?_, ?_, hc.2⟩
  · simpa using hl
  · intro q hq
    exact hb q (by simp [hq])

theorem validPath_head {rows cols : ℕ} {n z : Point} {p : List Point}
    (h : ValidPath rows cols n z p) : ∃ rest, p = n :: rest := by
  obtain ⟨hh, _, _, _⟩ := h
  cases p with
  | nil => simp at hh
  | cons a rest =>
      have ha : a = n := by simpa using hh
      exact ⟨rest, by rw [ha]⟩

end Cartography

namespace Cartography

/-! ## A* machinery: `exploreDir` case analysis -/

/-- The neighbor reached from `cur` along `d`. -/
def nbr (cur d : Point) : Point := (cur.1 + d.1, cur.2 + d.2)

theorem nbr_sub (cur d : Point) : ((nbr cur d).1 - cur.1, (nbr cur d).2 - cur.2) = d := by
  unfold nbr
  ext <;> dsimp <;> ring

theorem nbr_ne_cur {cur d : Point} (hd : d ∈ directions) : nbr cur d ≠ cur := by
  intro h
  have hd0 : d = (0, 0) := by
    have h1 := congrArg Prod.fst h
    have h2 := congrArg Prod.snd h
    unfold nbr at h1 h2
    dsimp at h1 h2
    ext <;> dsimp <;> omega
  exact directions_ne_zero hd hd0

theorem stepCost_nbr (cm : ℤ → ℤ → ℚ) (cur d : Point) :
    stepCost cm cur (nbr cur d) = baseCost d * cm (nbr cur d).1 (nbr cur d).2 := by
  unfold stepCost
  rw [nbr_sub]

theorem exploreDir_out (cm : ℤ → ℤ → ℚ) (rows cols : ℕ) (goal cur : Point) (s : AState)
    (d : Point) (h : ¬ inBounds rows cols (nbr cur d)) :
    exploreDir cm rows cols goal cur s d = s := by
  unfold exploreDir
  rw [if_neg (by simpa [inBounds, nbr] using h)]

/-- The updated state produced by a successful relaxation of the neighbor
`nbr cur d` at new cost `nc`. -/
def updState (goal cur : Point) (s : AState) (d : Point) (nc : ℚ) : AState :=
  { s with
    costs := (nbr cur d, nc) :: s.costs,
    queue := s.queue ++ [(nc + heuristic (nbr cur d) goal, nbr cur d)],
    puts := s.puts ++ [(nc + heuristic (nbr cur d) goal, nbr cur d)],
    cameFrom := (nbr cur d, some cur) :: s.cameFrom }

theorem exploreDir_in (cm : ℤ → ℤ → ℚ) (rows cols : ℕ) (goal cur : Point) (s : AState)
    (d : Point) (h : inBounds rows cols (nbr cur d)) :
    (exploreDir cm rows cols goal cur s d = s ∧
      ∃ c, alookup s.costs (nbr cur d) = some c ∧
        c ≤ (alookup s.costs cur).getD 0 + baseCost d * cm (nbr cur d).1 (nbr cur d).2) ∨
    ((alookup s.costs (nbr cur d) = none ∨
        ∃ c, alookup s.costs (nbr cur d) = some c ∧
          (alookup s.costs cur).getD 0 + baseCost d * cm (nbr cur d).1 (nbr cur d).2 < c) ∧
      exploreDir cm rows cols goal cur s d =
        updState goal cur s d
          ((alookup s.costs cur).getD 0 + baseCost d * cm (nbr cur d).1 (nbr cur d).2)) := by
  unfold exploreDir
  rw [if_pos (by simpa [inBounds, nbr] using h)]
  dsimp only
  cases halook : alookup s.costs (cur.1 + d.1, cur.2 + d.2) with
  | none =>
      right
      constructor
      · left
        simpa [nbr] using halook
      · simp only [halook, if_true]
        unfold updState baseCost nbr
        rfl
  | some c =>
      by_cases hlt : (alookup s.costs cur).getD 0 +
          (if d ∈ cardinals then (1 : ℚ) else 1.414) * cm (cur.1 + d.1) (cur.2 + d.2) < c
      · right
        constructor
        · right
          exact ⟨c, by simpa [nbr] using halook, by simpa [baseCost, nbr] using hlt⟩
        · simp only [halook]
          rw [if_pos (by simpa using hlt)]
          unfold updState baseCost nbr
          rfl
      · left
        constructor
        · simp only [halook]
          rw [if_neg (by simpa using hlt)]
        · exact ⟨c, by simpa [nbr] using halook, by simpa [baseCost, nbr] using not_lt.mp hlt⟩

end Cartography

namespace Cartography

/-! ## A* machinery: the search invariant and its preservation -/

/-- The A* loop invariant, relative to an optional *exempt* node (the node
just popped, whose queue witness may be temporarily missing while its
neighbors are relaxed):

* every recorded cost belongs to an in-bounds node, is nonnegative, and the
  start keeps cost 0;
* every queue entry over-approximates the recorded cost of its node;
* every non-exempt recorded node either still has a queue entry priced at
  most `cost + heuristic`, or is fully relaxed against all its in-bounds
  neighbors;
* the parent pointers: only `start` maps to `None`, and every recorded
  parent edge is a legal in-bounds unit move whose recorded costs satisfy
  the triangle `cost parent + step ≤ cost child`. -/
structure AInvAux (cm : ℤ → ℤ → ℚ) (rows cols : ℕ) (goal start : Point)
    (ex : Option Point) (s : AState) : Prop where
  costs_inB : ∀ n c, alookup s.costs n = some c → inBounds rows cols n
  costs_nonneg : ∀ n c, alookup s.costs n = some c → 0 ≤ c
  costs_start : alookup s.costs start = some 0
  queue_costs : ∀ e ∈ s.queue, ∃ c, alookup s.costs e.2 = some c ∧ c ≤ e.1
  relax : ∀ n c, alookup s.costs n = some c → some n ≠ ex →
    (∃ e ∈ s.queue, e.2 = n ∧ e.1 ≤ c + heuristic n goal) ∨
    (∀ d ∈ directions, inBounds rows cols (nbr n d) →
      ∃ c', alookup s.costs (nbr n d) = some c' ∧ c' ≤ c + stepCost cm n (nbr n d))
  came_none : ∀ n, alookup s.cameFrom n = some none → n = start
  came_step : ∀ n m, alookup s.cameFrom n = some (some m) →
    ((n.1 - m.1, n.2 - m.2) ∈ directions) ∧ inBounds rows cols n ∧
    ∃ cn cmm, alookup s.costs n = some cn ∧ alookup s.costs m = some cmm ∧
      cmm + stepCost cm m n ≤ cn

theorem exploreDir_preserves {cm : ℤ → ℤ → ℚ} {rows cols : ℕ} {goal start : Point}
    {ex : Option Point} {cur : Point} {cc : ℚ} {s : AState} {d : Point}
    (Hc1 : ∀ q : Point, inBounds rows cols q → 1 ≤ cm q.1 q.2)
    (hcur : alookup s.costs cur = some cc)
    (hd : d ∈ directions)
    (inv : AInvAux cm rows cols goal start ex s) :
    AInvAux cm rows cols goal start ex (exploreDir cm rows cols goal cur s d) := by
  by_cases hb : inBounds rows cols (nbr cur d)
  · rcases exploreDir_in cm rows cols goal cur s d hb with ⟨heq, _⟩ | ⟨hcond, heq⟩
    · rw [heq]; exact inv
    · rw [hcur] at hcond heq
      simp only [Option.getD_some] at hcond heq
      rw [heq]
      set nc := cc + baseCost d * cm (nbr cur d).1 (nbr cur d).2 with hnc
      have hnbne : nbr cur d ≠ cur := nbr_ne_cur hd
      have hcm1 : 1 ≤ cm (nbr cur d).1 (nbr cur d).2 := Hc1 _ hb
      have hcc0 : 0 ≤ cc := inv.costs_nonneg cur cc hcur
      have hb0 : 0 < baseCost d := baseCost_pos d
      have hnc0 : 0 ≤ nc := by rw [hnc]; nlinarith
      have himp : ∀ c0, alookup s.costs (nbr cur d) = some c0 → nc < c0 := by
        intro c0 hc0
        rcases hcond with hnone | ⟨c1, hc1, hlt⟩
        · rw [hc0] at hnone; cases hnone
        · rw [hc0] at hc1
          injection hc1 with h1
          rw [h1]
          exact hlt
      refine ⟨?_, ?_, ?_, ?_, ?_, ?_, ?_⟩
      ·
        intro n c hc
        rw [updState] at hc
        dsimp at hc
        rw [alookup_cons] at hc
        by_cases hn : nbr cur d = n
        · rw [← hn]; exact hb
        · rw [if_neg hn] at hc; exact inv.costs_inB n c hc
      ·
        intro n c hc
        rw [updState] at hc
        dsimp at hc
        rw [alookup_cons] at hc
        by_cases hn : nbr cur d = n
        · rw [if_pos hn] at hc
          injection hc with h
          rw [← h]; exact hnc0
        · rw [if_neg hn] at hc; exact inv.costs_nonneg n c hc
      ·
        rw [updState]
        dsimp
        rw [alookup_cons]
        by_cases hst : nbr cur d = start
        · exfalso
          have := himp 0 (by rw [hst]; exact inv.costs_start)
          linarith
        · rw [if_neg hst]; exact inv.costs_start
      ·
        intro e he
        rw [updState] at he ⊢
        dsimp at he ⊢
        rw [List.mem_append] at he
        rcases he with he | he
        · obtain ⟨c, hc, hce⟩ := inv.queue_costs e he
          by_cases hn : nbr cur d = e.2
          · refine ⟨nc, by rw [alookup_cons, if_pos hn], ?_⟩
            have := himp c (by rw [hn]; exact hc)
            linarith
          · exact ⟨c, by rw [alookup_cons, if_neg hn]; exact hc, hce⟩
        · simp only [List.mem_singleton] at he
          subst he
          refine ⟨nc, by rw [alookup_cons, if_pos rfl], ?_⟩
          dsimp
          linarith [heuristic_nonneg (nbr cur d) goal]
      ·
        intro n c hc hex
        rw [updState] at hc ⊢
        dsimp at hc ⊢
        rw [alookup_cons] at hc
        by_cases hn : nbr cur d = n
        · rw [if_pos hn] at hc
          injection hc with hceq
          left
          refine ⟨(nc + heuristic (nbr cur d) goal, nbr cur d),
            List.mem_append_right _ (by simp), hn, ?_⟩
          dsimp
          rw [← hceq, ← hn]
        · rw [if_neg hn] at hc
          rcases inv.relax n c hc hex with ⟨e, he, he2, he1⟩ | hrel
          · exact Or.inl ⟨e, List.mem_append_left _ he, he2, he1⟩
          · right
            intro d' hd' hbd'
            obtain ⟨c', hc', hle⟩ := hrel d' hd' hbd'
            by_cases hn' : nbr cur d = nbr n d'
            · refine ⟨nc, by rw [alookup_cons, if_pos hn'], ?_⟩
              have := himp c' (by rw [hn']; exact hc')
              linarith
            · exact ⟨c', by rw [alookup_cons, if_neg hn']; exact hc', hle⟩
      ·
        intro n hcf
        rw [updState] at hcf
        dsimp at hcf
        rw [alookup_cons] at hcf
        by_cases hn : nbr cur d = n
        · rw [if_pos hn] at hcf
          simp at hcf
        · rw [if_neg hn] at hcf; exact inv.came_none n hcf
      ·
        intro n m hcf
        rw [updState] at hcf ⊢
        dsimp at hcf ⊢
        rw [alookup_cons] at hcf
        by_cases hn : nbr cur d = n
        · rw [if_pos hn] at hcf
          have hm : m = cur := by
            injection hcf with h1
            injection h1 with h2
            exact h2.symm
          subst hm
          refine ⟨?_, ?_, nc, cc, ?_, ?_, ?_⟩
          · rw [← hn, nbr_sub]; exact hd
          · rw [← hn]; exact hb
          · rw [← hn, alookup_cons, if_pos rfl]
          · rw [alookup_cons, if_neg hnbne]; exact hcur
          · rw [← hn, stepCost_nbr, hnc]
        · rw [if_neg hn] at hcf
          obtain ⟨hdir, hinB, cn, cmm, hcn, hcmm, hle⟩ := inv.came_step n m hcf
          refine ⟨hdir, hinB, ?_⟩
          by_cases hm : nbr cur d = m
          · refine ⟨cn, nc, by rw [alookup_cons, if_neg hn]; exact hcn,
              by rw [alookup_cons, if_pos hm], ?_⟩
            have hto := himp cmm (by rw [hm]; exact hcmm)
            linarith
          · exact ⟨cn, cmm, by rw [alookup_cons, if_neg hn]; exact hcn,
              by rw [alookup_cons, if_neg hm]; exact hcmm, hle⟩
  · rw [exploreDir_out cm rows cols goal cur s d hb]
    exact inv

end Cartography

namespace Cartography

/-! ## A* machinery: fold-level lemmas and the loop-step invariant -/

theorem exploreDir_costs_other {cm : ℤ → ℤ → ℚ} {rows cols : ℕ} {goal cur : Point}
    {s : AState} {d : Point} {n : Point} (hn : nbr cur d ≠ n) :
    alookup (exploreDir cm rows cols goal cur s d).costs n = alookup s.costs n := by
  by_cases hb : inBounds rows cols (nbr cur d)
  · rcases exploreDir_in cm rows cols goal cur s d hb with ⟨heq, _⟩ | ⟨_, heq⟩
    · rw [heq]
    · rw [heq, updState]
      dsimp
      rw [alookup_cons, if_neg hn]
  · rw [exploreDir_out cm rows cols goal cur s d hb]

theorem exploreDir_queue_mono {cm : ℤ → ℤ → ℚ} {rows cols : ℕ} {goal cur : Point}
    {s : AState} {d : Point} {e : ℚ × Point} (he : e ∈ s.queue) :
    e ∈ (exploreDir cm rows cols goal cur s d).queue := by
  by_cases hb : inBounds rows cols (nbr cur d)
  · rcases exploreDir_in cm rows cols goal cur s d hb with ⟨heq, _⟩ | ⟨_, heq⟩
    · rw [heq]; exact he
    · rw [heq, updState]
      dsimp
      exact List.mem_append_left _ he
  · rw [exploreDir_out cm rows cols goal cur s d hb]
    exact he

theorem exploreDir_costs_mono {cm : ℤ → ℤ → ℚ} {rows cols : ℕ} {goal cur : Point}
    {s : AState} {d : Point} {n : Point} {c : ℚ} (hc : alookup s.costs n = some c) :
    ∃ c', alookup (exploreDir cm rows cols goal cur s d).costs n = some c' ∧ c' ≤ c := by
  by_cases hb : inBounds rows cols (nbr cur d)
  · rcases exploreDir_in cm rows cols goal cur s d hb with ⟨heq, _⟩ | ⟨hcond, heq⟩
    · rw [heq]; exact ⟨c, hc, le_refl c⟩
    · rw [heq, updState]
      dsimp
      by_cases hn : nbr cur d = n
      · refine ⟨_, by rw [alookup_cons, if_pos hn], ?_⟩
        rcases hcond with hnone | ⟨c1, hc1, hlt⟩
        · rw [hn, hc] at hnone; cases hnone
        · rw [hn, hc] at hc1
          injection hc1 with h1
          rw [h1]
          exact le_of_lt hlt
      · exact ⟨c, by rw [alookup_cons, if_neg hn]; exact hc, le_refl c⟩
  · rw [exploreDir_out cm rows cols goal cur s d hb]
    exact ⟨c, hc, le_refl c⟩

theorem expFold_costs_mono {cm : ℤ → ℤ → ℚ} {rows cols : ℕ} {goal cur : Point} :
    ∀ (ds : List Point) (s : AState) (n : Point) (c : ℚ),
      alookup s.costs n = some c →
      ∃ c', alookup (List.foldl (exploreDir cm rows cols goal cur) s ds).costs n = some c' ∧
        c' ≤ c := by
  intro ds
  induction ds with
  | nil => intro s n c hc; exact ⟨c, hc, le_refl c⟩
  | cons d rest ih =>
      intro s n c hc
      obtain ⟨c1, hc1, hle1⟩ := exploreDir_costs_mono (d := d) hc
      obtain ⟨c2, hc2, hle2⟩ := ih (exploreDir cm rows cols goal cur s d) n c1 hc1
      exact ⟨c2, hc2, hle2.trans hle1⟩

theorem expFold_queue_mono {cm : ℤ → ℤ → ℚ} {rows cols : ℕ} {goal cur : Point} :
    ∀ (ds : List Point) (s : AState) (e : ℚ × Point), e ∈ s.queue →
      e ∈ (List.foldl (exploreDir cm rows cols goal cur) s ds).queue := by
  intro ds
  induction ds with
  | nil => intro s e he; exact he
  | cons d rest ih =>
      intro s e he
      exact ih _ e (exploreDir_queue_mono he)

theorem expFold_costs_cur {cm : ℤ → ℤ → ℚ} {rows cols : ℕ} {goal cur : Point} :
    ∀ (ds : List Point) (s : AState), (∀ d ∈ ds, d ∈ directions) →
      alookup (List.foldl (exploreDir cm rows cols goal cur) s ds).costs cur =
        alookup s.costs cur := by
  intro ds
  induction ds with
  | nil => intro s _; rfl
  | cons d rest ih =>
      intro s hds
      rw [List.foldl_cons, ih _ (fun d' hd' => hds d' (by simp [hd']))]
      exact exploreDir_costs_other (nbr_ne_cur (hds d (by simp)))

theorem expFold_preserves {cm : ℤ → ℤ → ℚ} {rows cols : ℕ} {goal start : Point}
    {ex : Option Point} {cur : Point} {cc : ℚ}
    (Hc1 : ∀ q : Point, inBounds rows cols q → 1 ≤ cm q.1 q.2) :
    ∀ (ds : List Point) (s : AState), (∀ d ∈ ds, d ∈ directions) →
      alookup s.costs cur = some cc →
      AInvAux cm rows cols goal start ex s →
      AInvAux cm rows cols goal start ex
        (List.foldl (exploreDir cm rows cols goal cur) s ds) := by
  intro ds
  induction ds with
  | nil => intro s _ _ inv; exact inv
  | cons d rest ih =>
      intro s hds hcur inv
      rw [List.foldl_cons]
      refine ih _ (fun d' hd' => hds d' (by simp [hd'])) ?_
        (exploreDir_preserves Hc1 hcur (hds d (by simp)) inv)
      rw [exploreDir_costs_other (nbr_ne_cur (hds d (by simp)))]
      exact hcur

theorem expFold_relax_nbrs {cm : ℤ → ℤ → ℚ} {rows cols : ℕ} {goal cur : Point} {cc : ℚ} :
    ∀ (ds : List Point) (s : AState), (∀ d ∈ ds, d ∈ directions) →
      alookup s.costs cur = some cc →
      ∀ d ∈ ds, inBounds rows cols (nbr cur d) →
        ∃ c', alookup (List.foldl (exploreDir cm rows cols goal cur) s ds).costs (nbr cur d) =
            some c' ∧ c' ≤ cc + stepCost cm cur (nbr cur d) := by
  intro ds
  induction ds with
  | nil => intro s _ _ d hd; simp at hd
  | cons d0 rest ih =>
      intro s hds hcur d hd hb
      rw [List.foldl_cons]
      rcases List.mem_cons.mp hd with heq | hd'
      · subst heq
        have hstep : ∃ c1, alookup (exploreDir cm rows cols goal cur s d).costs (nbr cur d) =
            some c1 ∧ c1 ≤ cc + stepCost cm cur (nbr cur d) := by
          rcases exploreDir_in cm rows cols goal cur s d hb with ⟨heq2, c, hc, hle⟩ | ⟨_, heq2⟩
          · rw [heq2]
            refine ⟨c, hc, ?_⟩
            rw [hcur] at hle
            simpa [stepCost_nbr] using hle
          · rw [heq2, updState]
            dsimp
            rw [hcur] at heq2 ⊢
            refine ⟨_, by rw [alookup_cons, if_pos rfl], ?_⟩
            simp only [Option.getD_some]
            rw [stepCost_nbr]
        obtain ⟨c1, hc1, hle1⟩ := hstep
        obtain ⟨c2, hc2, hle2⟩ := expFold_costs_mono rest _ _ _ hc1
        exact ⟨c2, hc2, hle2.trans hle1⟩
      · refine ih _ (fun d' hd'' => hds d' (by simp [hd''])) ?_ d hd' hb
        rw [exploreDir_costs_other (nbr_ne_cur (hds d0 (by simp)))]
        exact hcur

/-- `getMin` returns a least entry together with the queue minus one
occurrence of it. -/
theorem getMin_spec {q : List (ℚ × Point)} {e : ℚ × Point} {rest : List (ℚ × Point)}
    (h : getMin q = some (e, rest)) :
    e ∈ q ∧ (∀ f ∈ q, entryLe e f = true) ∧ rest = q.erase e := by
  cases q with
  | nil => simp [getMin] at h
  | cons x xs =>
      unfold getMin at h
      simp only [Option.some.injEq, Prod.mk.injEq] at h
      obtain ⟨rfl, rfl⟩ := h
      exact ⟨selectMin_mem x xs, selectMin_le x xs, rfl⟩

theorem entryLe_fst_le {a b : ℚ × Point} (h : entryLe a b = true) : a.1 ≤ b.1 := by
  unfold entryLe at h
  simp only [Bool.or_eq_true, Bool.and_eq_true, decide_eq_true_eq] at h
  rcases h with h | ⟨h, _⟩
  · exact le_of_lt h
  · exact le_of_eq h

theorem pop_aux {cm : ℤ → ℤ → ℚ} {rows cols : ℕ} {goal start : Point} {s : AState}
    {e : ℚ × Point} {rest : List (ℚ × Point)}
    (inv : AInvAux cm rows cols goal start none s)
    (hpop : getMin s.queue = some (e, rest)) :
    AInvAux cm rows cols goal start (some e.2)
      { s with queue := rest, pops := s.pops ++ [e] } := by
  obtain ⟨hemem, hmin, hrest⟩ := getMin_spec hpop
  refine ⟨inv.costs_inB, inv.costs_nonneg, inv.costs_start, ?_, ?_, inv.came_none,
    inv.came_step⟩
  · intro f hf
    dsimp at hf
    rw [hrest] at hf
    exact inv.queue_costs f (List.mem_of_mem_erase hf)
  · intro n c hc hex
    dsimp at hc ⊢
    have hne : n ≠ e.2 := by
      intro h
      exact hex (by rw [h])
    rcases inv.relax n c hc (by simp) with ⟨f, hfmem, hf2, hf1⟩ | hrel
    · left
      refine ⟨f, ?_, hf2, hf1⟩
      rw [hrest]
      have hfe : f ≠ e := by
        intro h
        rw [h] at hf2
        exact hne hf2.symm
      exact (List.mem_erase_of_ne hfe).mpr hfmem
    · exact Or.inr hrel

theorem aux_to_full {cm : ℤ → ℤ → ℚ} {rows cols : ℕ} {goal start : Point} {cur : Point}
    {s' : AState}
    (invA : AInvAux cm rows cols goal start (some cur) s')
    (hrel : ∀ c, alookup s'.costs cur = some c →
      ∀ d ∈ directions, inBounds rows cols (nbr cur d) →
        ∃ c', alookup s'.costs (nbr cur d) = some c' ∧ c' ≤ c + stepCost cm cur (nbr cur d)) :
    AInvAux cm rows cols goal start none s' := by
  refine ⟨invA.costs_inB, invA.costs_nonneg, invA.costs_start, invA.queue_costs, ?_,
    invA.came_none, invA.came_step⟩
  intro n c hc _
  by_cases hn : n = cur
  · subst hn
    exact Or.inr (hrel c hc)
  · exact invA.relax n c hc (by simpa using hn)

/-- One full loop iteration (pop + eight relaxations) preserves the
invariant. -/
theorem loop_step_inv {cm : ℤ → ℤ → ℚ} {rows cols : ℕ} {goal start : Point} {s : AState}
    {e : ℚ × Point} {rest : List (ℚ × Point)}
    (Hc1 : ∀ q : Point, inBounds rows cols q → 1 ≤ cm q.1 q.2)
    (inv : AInvAux cm rows cols goal start none s)
    (hpop : getMin s.queue = some (e, rest)) :
    AInvAux cm rows cols goal start none
      (List.foldl (exploreDir cm rows cols goal e.2)
        { s with queue := rest, pops := s.pops ++ [e] } directions) := by
  obtain ⟨hemem, _, _⟩ := getMin_spec hpop
  obtain ⟨cc, hcc, _⟩ := inv.queue_costs e hemem
  have hcc1 : alookup ({ s with queue := rest, pops := s.pops ++ [e] } : AState).costs e.2 =
      some cc := hcc
  have invAux := pop_aux inv hpop
  have invFold := expFold_preserves Hc1 directions _ (fun _ hd => hd) hcc1 invAux
  apply aux_to_full invFold
  intro c hc d hd hb
  have hcur_pres := @expFold_costs_cur cm rows cols goal e.2 directions
    { s with queue := rest, pops := s.pops ++ [e] } (fun _ hd' => hd')
  rw [hcur_pres, hcc1] at hc
  injection hc with hc
  subst hc
  exact expFold_relax_nbrs directions _ (fun _ hd' => hd') hcc1 d hd hb

end Cartography

namespace Cartography

/-! ## A* machinery: path reconstruction and the frontier lemma -/

theorem reconstruct_getLast :
    ∀ (fuel : ℕ) (cf : List (Point × Option Point)) (z : Point) (p : List Point),
      reconstruct fuel cf z = some p → p.getLast? = some z := by
  intro fuel
  induction fuel with
  | zero => intro cf z p h; simp [reconstruct] at h
  | succ fuel ih =>
      intro cf z p h
      unfold reconstruct at h
      cases hcf : alookup cf z with
      | none => rw [hcf] at h; cases h
      | some o =>
          rw [hcf] at h
          cases o with
          | none =>
              simp only [Option.some.injEq] at h
              rw [← h]
              rfl
          | some prev =>
              simp only [Option.map_eq_some'] at h
              obtain ⟨p', hp', rfl⟩ := h
              simp [List.getLast?_concat]

theorem reconstruct_valid {rows cols : ℕ} {start : Point}
    (cf : List (Point × Option Point))
    (hnone : ∀ n, alookup cf n = some none → n = start)
    (hstep : ∀ n m, alookup cf n = some (some m) →
      ((n.1 - m.1, n.2 - m.2) ∈ directions) ∧ inBounds rows cols n) :
    ∀ (fuel : ℕ) (z : Point) (p : List Point), reconstruct fuel cf z = some p →
      p.head? = some start ∧ p.getLast? = some z ∧
      List.Chain' (fun a b => (b.1 - a.1, b.2 - a.2) ∈ directions) p ∧
      (∀ q ∈ p, q = start ∨ inBounds rows cols q) := by
  intro fuel
  induction fuel with
  | zero => intro z p h; simp [reconstruct] at h
  | succ fuel ih =>
      intro z p h
      unfold reconstruct at h
      cases hcf : alookup cf z with
      | none => rw [hcf] at h; cases h
      | some o =>
          rw [hcf] at h
          cases o with
          | none =>
              simp only [Option.some.injEq] at h
              have hz : z = start := hnone z hcf
              rw [← h, hz]
              refine ⟨rfl, rfl, by simp, ?_⟩
              intro q hq
              simp only [List.mem_singleton] at hq
              exact Or.inl hq
          | some prev =>
              simp only [Option.map_eq_some'] at h
              obtain ⟨p', hp', rfl⟩ := h
              obtain ⟨hh, hl, hc, hm⟩ := ih prev p' hp'
              have hpne : p' ≠ [] := by
                intro hnil
                rw [hnil] at hh
                cases hh
              obtain ⟨hdir, hinB⟩ := hstep z prev hcf
              refine ⟨?_, by simp [List.getLast?_concat], ?_, ?_⟩
              · rw [List.head?_append_of_ne_nil p' hpne]
                exact hh
              · rw [List.chain'_append]
                refine ⟨hc, by simp, ?_⟩
                intro x hx y hy
                simp only [List.head?_cons, Option.mem_def, Option.some.injEq] at hy
                rw [hl] at hx
                simp only [Option.mem_def, Option.some.injEq] at hx
                rw [← hy, ← hx]
                exact hdir
              · intro q hq
                rw [List.mem_append] at hq
                rcases hq with hq | hq
                · exact hm q hq
                · simp only [List.mem_singleton] at hq
                  rw [hq]
                  exact Or.inr hinB

/-- Telescoping the parent chain: the reconstructed path costs at most the
recorded cost of its endpoint. -/
theorem reconstruct_cost {cm : ℤ → ℤ → ℚ} {start : Point}
    (cf : List (Point × Option Point)) (costs : List (Point × ℚ))
    (hstep : ∀ n m, alookup cf n = some (some m) →
      ∃ cn cmm, alookup costs n = some cn ∧ alookup costs m = some cmm ∧
        cmm + stepCost cm m n ≤ cn)
    (hstart : alookup costs start = some 0)
    (hnone : ∀ n, alookup cf n = some none → n = start) :
    ∀ (fuel : ℕ) (z : Point) (p : List Point), reconstruct fuel cf z = some p →
      ∀ cz, alookup costs z = some cz → pathCost cm p ≤ cz := by
  intro fuel
  induction fuel with
  | zero => intro z p h; simp [reconstruct] at h
  | succ fuel ih =>
      intro z p h cz hcz
      unfold reconstruct at h
      cases hcf : alookup cf z with
      | none => rw [hcf] at h; cases h
      | some o =>
          rw [hcf] at h
          cases o with
          | none =>
              simp only [Option.some.injEq] at h
              have hz : z = start := hnone z hcf
              rw [hz] at hcz
              rw [hstart] at hcz
              injection hcz with hcz
              rw [← h, ← hcz]
              exact le_refl _
          | some prev =>
              simp only [Option.map_eq_some'] at h
              obtain ⟨p', hp', rfl⟩ := h
              obtain ⟨cn, cmm, hcn, hcmm, hle⟩ := hstep z prev hcf
              rw [hcz] at hcn
              injection hcn with hcn
              have hlast : p'.getLast? = some prev := reconstruct_getLast fuel cf prev p' hp'
              have hpne : p' ≠ [] := by
                intro hnil
                rw [hnil] at hlast
                cases hlast
              have hlast' : p'.getLast hpne = prev := by
                have := List.getLast?_eq_getLast p' hpne
                rw [this] at hlast
                injection hlast
              rw [pathCost_append_last cm z p' hpne, hlast']
              have hp'le : pathCost cm p' ≤ cmm := ih prev p' hp' cmm hcmm
              linarith [hp'le, hle, hcn.ge]

end Cartography

namespace Cartography

/-! ## A* machinery: admissibility and the frontier lemma -/

/-- On grids whose in-bounds cost-map values are all ≥ 1, the octile
heuristic never overestimates the cost of any valid path. -/
theorem heuristic_admissible {cm : ℤ → ℤ → ℚ} {rows cols : ℕ}
    (Hc1 : ∀ q : Point, inBounds rows cols q → 1 ≤ cm q.1 q.2) :
    ∀ (p : List Point) (n z : Point), ValidPath rows cols n z p →
      heuristic n z ≤ pathCost cm p := by
  intro p
  induction p with
  | nil => intro n z h; obtain ⟨hh, _, _, _⟩ := h; cases hh
  | cons a tl ih =>
      intro n z h
      have han : a = n := by
        obtain ⟨hh, _, _, _⟩ := h
        simpa using hh
      subst han
      cases tl with
      | nil =>
          obtain ⟨_, hl, _, _⟩ := h
          have hz : a = z := by simpa using hl
          rw [hz, heuristic_self]
          exact le_refl _
      | cons b rest' =>
          obtain ⟨hdir, hinB, hvb⟩ := validPath_cons h
          have hb_eq : b = nbr a (b.1 - a.1, b.2 - a.2) := by
            unfold nbr
            ext <;> dsimp <;> ring
          have h1 : heuristic a b = baseCost (b.1 - a.1, b.2 - a.2) := by
            conv_lhs => rw [hb_eq]
            exact heuristic_step a _ hdir
          have h2 : heuristic a z ≤ heuristic a b + heuristic b z := heuristic_triangle a b z
          have h3 : heuristic b z ≤ pathCost cm (b :: rest') := ih b z hvb
          have h4 : baseCost (b.1 - a.1, b.2 - a.2) ≤ stepCost cm a b := by
            unfold stepCost
            have hcmb : 1 ≤ cm b.1 b.2 := Hc1 b hinB
            have hbase := baseCost_pos (b.1 - a.1, b.2 - a.2)
            nlinarith
          rw [pathCost_cons]
          linarith

/-- The frontier lemma: for every valid path from a recorded node, either
its endpoint is already recorded at no greater cost, or some queue entry
sits on the path with consistent bookkeeping and a valid remaining
suffix. -/
theorem frontier {cm : ℤ → ℤ → ℚ} {rows cols : ℕ} {goal start : Point} {s : AState}
    (inv : AInvAux cm rows cols goal start none s) :
    ∀ (p : List Point) (n z : Point) (c : ℚ), ValidPath rows cols n z p →
      alookup s.costs n = some c →
      (∃ cz, alookup s.costs z = some cz ∧ cz ≤ c + pathCost cm p) ∨
      (∃ e ∈ s.queue, ∃ ce, alookup s.costs e.2 = some ce ∧
        e.1 ≤ ce + heuristic e.2 goal ∧
        ∃ suf, ValidPath rows cols e.2 z suf ∧
          ce + pathCost cm suf ≤ c + pathCost cm p) := by
  intro p
  induction p with
  | nil => intro n z c h; obtain ⟨hh, _, _, _⟩ := h; cases hh
  | cons a tl ih =>
      intro n z c h hc
      have han : a = n := by
        obtain ⟨hh, _, _, _⟩ := h
        simpa using hh
      subst han
      cases tl with
      | nil =>
          obtain ⟨_, hl, _, _⟩ := h
          have hz : a = z := by simpa using hl
          subst hz
          left
          exact ⟨c, hc, by simp [pathCost]⟩
      | cons b rest' =>
          obtain ⟨hdir, hinB, hvb⟩ := validPath_cons h
          rcases inv.relax a c hc (by simp) with ⟨e, hemem, he2, he1⟩ | hrel
          · right
            refine ⟨e, hemem, c, ?_, ?_, a :: b :: rest', ?_, le_refl _⟩
            · rw [he2]; exact hc
            · rw [he2]; exact he1
            · rw [he2]; exact h
          · have hb_eq : b = nbr a (b.1 - a.1, b.2 - a.2) := by
              unfold nbr
              ext <;> dsimp <;> ring
            obtain ⟨c1, hc1, hle1⟩ := hrel (b.1 - a.1, b.2 - a.2) hdir (by rw [← hb_eq]; exact hinB)
            rw [← hb_eq] at hc1 hle1
            rcases ih b z c1 hvb hc1 with ⟨cz, hcz, hle⟩ | ⟨e, hemem, ce, hce, he1, suf, hsuf, hbd⟩
            · left
              refine ⟨cz, hcz, ?_⟩
              rw [pathCost_cons]
              linarith
            · right
              refine ⟨e, hemem, ce, hce, he1, suf, hsuf, ?_⟩
              rw [pathCost_cons]
              linarith

end Cartography

namespace Cartography

/-! ## A* machinery: the main loop theorems -/

theorem astarLoop_opt {cm : ℤ → ℤ → ℚ} {rows cols : ℕ} {goal start : Point}
    (Hc1 : ∀ q : Point, inBounds rows cols q → 1 ≤ cm q.1 q.2) :
    ∀ (fuel : ℕ) (s : AState), AInvAux cm rows cols goal start none s →
      ∀ (p : List Point) (s' : AState),
        astarLoop cm rows cols goal fuel s = (some p, s') →
        ValidPath rows cols start goal p ∧
        ∀ q, ValidPath rows cols start goal q → pathCost cm p ≤ pathCost cm q := by
  intro fuel
  induction fuel with
  | zero => intro s _ p s' h; simp [astarLoop] at h
  | succ fuel ih =>
      intro s inv p s' h
      unfold astarLoop at h
      cases hq : getMin s.queue with
      | none => rw [hq] at h; simp at h
      | some er =>
          obtain ⟨e, rest⟩ := er
          rw [hq] at h
          dsimp at h
          by_cases hgoal : e.2 = goal
          · rw [if_pos hgoal] at h
            simp only [Prod.mk.injEq] at h
            obtain ⟨hrec, _⟩ := h
            obtain ⟨hemem, hmin, _⟩ := getMin_spec hq
            obtain ⟨cg, hcg, hcge⟩ := inv.queue_costs e hemem
            have hstepgeo : ∀ n m, alookup s.cameFrom n = some (some m) →
                ((n.1 - m.1, n.2 - m.2) ∈ directions) ∧ inBounds rows cols n :=
              fun n m hm => ⟨(inv.came_step n m hm).1, (inv.came_step n m hm).2.1⟩
            obtain ⟨hh, hl, hch, hmem⟩ :=
              reconstruct_valid s.cameFrom inv.came_none hstepgeo _ e.2 p hrec
            have hinBstart : inBounds rows cols start :=
              inv.costs_inB start 0 inv.costs_start
            have hvalid : ValidPath rows cols start goal p := by
              refine ⟨hh, by rw [← hgoal]; exact hl, ?_, hch⟩
              intro q hq'
              rcases hmem q hq' with heq | hb
              · rw [heq]; exact hinBstart
              · exact hb
            have hcost : pathCost cm p ≤ cg := by
              refine reconstruct_cost s.cameFrom s.costs ?_ inv.costs_start inv.came_none
                _ e.2 p hrec cg ?_
              · intro n m hm
                exact (inv.came_step n m hm).2.2
              · exact hcg
            refine ⟨hvalid, ?_⟩
            intro q hqv
            rcases frontier inv q start goal 0 hqv inv.costs_start with
              ⟨cz, hcz, hle⟩ | ⟨f, hfmem, cf', hcf, hf1, suf, hsuf, hbd⟩
            · rw [← hgoal] at hcz
              rw [hcz] at hcg
              injection hcg with hcg
              linarith [hcost, hle, hcg.le, hcg.ge]
            · have he1f1 : e.1 ≤ f.1 := entryLe_fst_le (hmin f hfmem)
              have hadm : heuristic f.2 goal ≤ pathCost cm suf := by
                have hsufg : ValidPath rows cols f.2 goal suf := hsuf
                exact heuristic_admissible Hc1 suf f.2 goal hsufg
              linarith
          · rw [if_neg hgoal] at h
            exact ih _ (loop_step_inv Hc1 inv hq) p s' h

/-- The cost-free part of the invariant: parent pointers form legal
in-bounds steps, and only the start maps to `None`.  Preserved with no
hypothesis on the cost map. -/
structure VInv (rows cols : ℕ) (start : Point) (s : AState) : Prop where
  came_none : ∀ n, alookup s.cameFrom n = some none → n = start
  came_step : ∀ n m, alookup s.cameFrom n = some (some m) →
    ((n.1 - m.1, n.2 - m.2) ∈ directions) ∧ inBounds rows cols n

theorem exploreDir_preserves_V {cm : ℤ → ℤ → ℚ} {rows cols : ℕ} {goal start cur : Point}
    {s : AState} {d : Point} (hd : d ∈ directions)
    (inv : VInv rows cols start s) :
    VInv rows cols start (exploreDir cm rows cols goal cur s d) := by
  by_cases hb : inBounds rows cols (nbr cur d)
  · rcases exploreDir_in cm rows cols goal cur s d hb with ⟨heq, _⟩ | ⟨_, heq⟩
    · rw [heq]; exact inv
    · rw [heq, updState]
      constructor
      · intro n hcf
        dsimp at hcf
        rw [alookup_cons] at hcf
        by_cases hn : nbr cur d = n
        · rw [if_pos hn] at hcf; simp at hcf
        · rw [if_neg hn] at hcf; exact inv.came_none n hcf
      · intro n m hcf
        dsimp at hcf
        rw [alookup_cons] at hcf
        by_cases hn : nbr cur d = n
        · rw [if_pos hn] at hcf
          have hm : m = cur := by
            injection hcf with h1
            injection h1 with h2
            exact h2.symm
          subst hm
          constructor
          · rw [← hn, nbr_sub]; exact hd
          · rw [← hn]; exact hb
        · rw [if_neg hn] at hcf
          exact inv.came_step n m hcf
  · rw [exploreDir_out cm rows cols goal cur s d hb]
    exact inv

theorem expFold_preserves_V {cm : ℤ → ℤ → ℚ} {rows cols : ℕ} {goal start cur : Point} :
    ∀ (ds : List Point) (s : AState), (∀ d ∈ ds, d ∈ directions) →
      VInv rows cols start s →
      VInv rows cols start
        (List.foldl (exploreDir cm rows cols goal cur) s ds) := by
  intro ds
  induction ds with
  | nil => intro s _ inv; exact inv
  | cons d rest ih =>
      intro s hds inv
      rw [List.foldl_cons]
      exact ih _ (fun d' hd' => hds d' (by simp [hd']))
        (exploreDir_preserves_V (hds d (by simp)) inv)

theorem astarLoop_valid {cm : ℤ → ℤ → ℚ} {rows cols : ℕ} {goal start : Point}
    (hinBstart : inBounds rows cols start) :
    ∀ (fuel : ℕ) (s : AState), VInv rows cols start s →
      ∀ (p : List Point) (s' : AState),
        astarLoop cm rows cols goal fuel s = (some p, s') →
        ValidPath rows cols start goal p := by
  intro fuel
  induction fuel with
  | zero => intro s _ p s' h; simp [astarLoop] at h
  | succ fuel ih =>
      intro s inv p s' h
      unfold astarLoop at h
      cases hq : getMin s.queue with
      | none => rw [hq] at h; simp at h
      | some er =>
          obtain ⟨e, rest⟩ := er
          rw [hq] at h
          dsimp at h
          by_cases hgoal : e.2 = goal
          · rw [if_pos hgoal] at h
            simp only [Prod.mk.injEq] at h
            obtain ⟨hrec, _⟩ := h
            obtain ⟨hh, hl, hch, hmem⟩ :=
              reconstruct_valid s.cameFrom inv.came_none inv.came_step _ e.2 p hrec
            refine ⟨hh, by rw [← hgoal]; exact hl, ?_, hch⟩
            intro q hq'
            rcases hmem q hq' with heq | hb
            · rw [heq]; exact hinBstart
            · exact hb
          · rw [if_neg hgoal] at h
            exact ih (List.foldl (exploreDir cm rows cols goal e.2)
                { s with queue := rest, pops := s.pops ++ [e] } directions)
              (expFold_preserves_V directions
                { s with queue := rest, pops := s.pops ++ [e] } (fun _ hd => hd)
                ⟨inv.came_none, inv.came_step⟩)
              p s' h

end Cartography

namespace Cartography

/-! ## Claims C1 and C7: optimality and the not-found behavior of `astar` -/

theorem alookup_nil {β : Type} (k : Point) : alookup ([] : List (Point × β)) k = none := rfl

theorem initState_inv {cm : ℤ → ℤ → ℚ} {rows cols : ℕ} {goal start : Point}
    (hs : inBounds rows cols start) :
    AInvAux cm rows cols goal start none (initState start) := by
  have hlook : ∀ n : Point, alookup ((initState start).costs) n =
      if start = n then some 0 else none := by
    intro n
    show alookup [(start, (0 : ℚ))] n = _
    rw [alookup_cons, alookup_nil]
  refine ⟨?_, ?_, ?_, ?_, ?_, ?_, ?_⟩
  · intro n c hc
    rw [hlook] at hc
    split at hc
    · next h => rw [← h]; exact hs
    · cases hc
  · intro n c hc
    rw [hlook] at hc
    split at hc
    · injection hc with hc; rw [← hc]
    · cases hc
  · rw [hlook, if_pos rfl]
  · intro e he
    have he' : e = ((0 : ℚ), start) := by simpa [initState] using he
    rw [he']
    exact ⟨0, by rw [hlook]; simp, le_refl 0⟩
  · intro n c hc _
    rw [hlook] at hc
    split at hc
    · next h =>
        injection hc with hc
        left
        refine ⟨((0 : ℚ), start), by simp [initState], h, ?_⟩
        dsimp
        rw [← hc]
        have := heuristic_nonneg n goal
        linarith
    · cases hc
  · intro n hn
    have : alookup ((initState start).cameFrom) n =
        if start = n then some none else none := by
      show alookup [(start, (none : Option Point))] n = _
      rw [alookup_cons, alookup_nil]
    rw [this] at hn
    split at hn
    · next h => exact h.symm
    · cases hn
  · intro n m hn
    have : alookup ((initState start).cameFrom) n =
        if start = n then some none else none := by
      show alookup [(start, (none : Option Point))] n = _
      rw [alookup_cons, alookup_nil]
    rw [this] at hn
    split at hn
    · cases hn
    · cases hn

end Cartography

namespace Cartography

/-- **C1, amended** (optimality requires heuristic admissibility, i.e. all
in-bounds cost-map values ≥ 1).  If every in-bounds cell of the cost map
weighs at least 1 — so that the source's unscaled octile heuristic never
overestimates — then whenever `astar` returns a path for in-bounds
endpoints, that path is a valid 8-connected grid path from start to goal
whose cumulative cost (base 1 for cardinal and 1.414 for diagonal steps,
scaled by the destination cell) is exactly minimal among all 8-connected
in-grid paths. -/
theorem C1_astar_optimal (masks : List (String × Mask)) (mults : String → ℚ)
    (start goal : Point) (fuel : ℕ) (p : List Point)
    (Hc1 : ∀ q : Point, inBounds (maskRows (zeroMask masks)) (maskCols (zeroMask masks)) q →
      1 ≤ cost_map masks mults q.1 q.2)
    (hs : inBounds (maskRows (zeroMask masks)) (maskCols (zeroMask masks)) start)
    (hg : inBounds (maskRows (zeroMask masks)) (maskCols (zeroMask masks)) goal)
    (hret : astar start goal masks mults fuel = some p) :
    ValidPath (maskRows (zeroMask masks)) (maskCols (zeroMask masks)) start goal p ∧
    ∀ q, ValidPath (maskRows (zeroMask masks)) (maskCols (zeroMask masks)) start goal q →
      pathCost (cost_map masks mults) p ≤ pathCost (cost_map masks mults) q := by
  unfold astar astarFull at hret
  dsimp at hret
  cases hpr : astarLoop (cost_map masks mults) (maskRows (zeroMask masks))
      (maskCols (zeroMask masks)) goal fuel (initState start) with
  | mk res s' =>
      rw [hpr] at hret
      dsimp at hret
      rw [hret] at hpr
      exact astarLoop_opt Hc1 fuel (initState start) (initState_inv hs) p s' hpr

/-- The uniform-cost 2×2 grid used as the witness instance for C1. -/
def masks_c1w : List (String × Mask) := [("zero", [[1, 1], [1, 1]])]

unseal Rat.add Rat.mul Rat.sub Rat.ofScientific Rat.inv in
/-- Witness for `C1_astar_optimal` on the uniform 2×2 grid: the diagonal
path `[(0,0), (1,1)]` is returned and is optimal. -/
theorem C1_astar_optimal_witness :
    ValidPath (maskRows (zeroMask masks_c1w)) (maskCols (zeroMask masks_c1w))
      (0, 0) (1, 1) [(0, 0), (1, 1)] ∧
    ∀ q, ValidPath (maskRows (zeroMask masks_c1w)) (maskCols (zeroMask masks_c1w))
        (0, 0) (1, 1) q →
      pathCost (cost_map masks_c1w (fun _ => 1)) [(0, 0), (1, 1)] ≤
        pathCost (cost_map masks_c1w (fun _ => 1)) q := by
  refine C1_astar_optimal masks_c1w (fun _ => 1) (0, 0) (1, 1) 5 [(0, 0), (1, 1)] ?_
    (by decide) (by decide) (by decide)
  intro q hq
  have h1 : 0 ≤ q.1 ∧ q.1 < 2 ∧ 0 ≤ q.2 ∧ q.2 < 2 := by
    simpa [inBounds, maskRows, maskCols, zeroMask, masks_c1w] using hq
  obtain ⟨ha, hb, hc, hd⟩ := h1
  interval_cases q.1 <;> interval_cases q.2 <;> decide

/-- The 3×3 grid of the C1 counterexample: cost 1 at `(0,1)`, cost 1000 at
`(1,1)`, cost 0 everywhere else. -/
def masks_c1 : List (String × Mask) :=
  [("zero", [[1, 1, 1], [1, 1, 1], [1, 1, 1]]),
   ("m1", [[0, 0, 0], [1, 0, 0], [0, 0, 0]]),
   ("m2", [[0, 0, 0], [0, 1, 0], [0, 0, 0]])]

/-- Multipliers of the C1 counterexample: the `"zero"` layer contributes 0,
so most cells cost 0 — legal inputs on which the heuristic overestimates. -/
def mults_c1 : String → ℚ :=
  fun n => if n = "m1" then 1 else if n = "m2" then 1000 else 0

unseal Rat.add Rat.mul Rat.sub Rat.ofScientific Rat.inv in
/-- **C1, counterexample.**  With in-bounds start `(0,0)` and goal `(0,2)`
on the 3×3 grid above, `astar` returns the path `[(0,0), (0,1), (0,2)]` of
cumulative cost 1, while the valid 8-connected path
`[(0,0), (1,0), (2,1), (1,2), (0,2)]` costs 0: the returned cost exceeds
the minimum by 1, far beyond floating-point tolerance, because cost-map
values below 1 make the octile heuristic inadmissible. -/
theorem C1_counterexample :
    astar (0, 0) (0, 2) masks_c1 mults_c1 10 = some [(0, 0), (0, 1), (0, 2)] ∧
    pathCost (cost_map masks_c1 mults_c1) [(0, 0), (0, 1), (0, 2)] = 1 ∧
    ValidPath 3 3 (0, 0) (0, 2) [(0, 0), (1, 0), (2, 1), (1, 2), (0, 2)] ∧
    pathCost (cost_map masks_c1 mults_c1) [(0, 0), (1, 0), (2, 1), (1, 2), (0, 2)] = 0 := by
  exact ⟨by decide, by decide, by decide, by decide⟩

/-- **C7, amended.**  `astar` never raises: it returns either the
distinguished not-found value `None` or a path, and every returned path is
a valid 8-connected in-grid path from start to goal — including paths that
cross arbitrarily-high-finite-cost barrier cells, which the search
traverses rather than reporting not-found. -/
theorem C7_astar_some_is_valid (masks : List (String × Mask)) (mults : String → ℚ)
    (start goal : Point) (fuel : ℕ) (p : List Point)
    (hs : inBounds (maskRows (zeroMask masks)) (maskCols (zeroMask masks)) start)
    (hret : astar start goal masks mults fuel = some p) :
    ValidPath (maskRows (zeroMask masks)) (maskCols (zeroMask masks)) start goal p := by
  unfold astar astarFull at hret
  dsimp at hret
  cases hpr : astarLoop (cost_map masks mults) (maskRows (zeroMask masks))
      (maskCols (zeroMask masks)) goal fuel (initState start) with
  | mk res s' =>
      rw [hpr] at hret
      dsimp at hret
      rw [hret] at hpr
      refine astarLoop_valid hs fuel (initState start) ?_ p s' hpr
      constructor
      · intro n hn
        have : alookup ((initState start).cameFrom) n =
            if start = n then some none else none := by
          show alookup [(start, (none : Option Point))] n = _
          rw [alookup_cons, alookup_nil]
        rw [this] at hn
        split at hn
        · next h => exact h.symm
        · cases hn
      · intro n m hn
        have : alookup ((initState start).cameFrom) n =
            if start = n then some none else none := by
          show alookup [(start, (none : Option Point))] n = _
          rw [alookup_cons, alookup_nil]
        rw [this] at hn
        split at hn
        · cases hn
        · cases hn

/-- The 1×3 strip with an arbitrarily-high-cost barrier cell at `(1,0)`. -/
def masks_c7 : List (String × Mask) := [("zero", [[1, 1, 1]]), ("wall", [[0, 1, 0]])]

/-- Barrier multipliers: the wall cell costs a million, the rest cost 0. -/
def mults_c7 : String → ℚ := fun n => if n = "wall" then 1000000 else 0

unseal Rat.add Rat.mul Rat.sub Rat.ofScientific Rat.inv in
/-- Witness for `C7_astar_some_is_valid` on the barrier strip. -/
theorem C7_astar_some_is_valid_witness :
    ValidPath (maskRows (zeroMask masks_c7)) (maskCols (zeroMask masks_c7))
      (0, 0) (2, 0) [(0, 0), (1, 0), (2, 0)] :=
  C7_astar_some_is_valid masks_c7 mults_c7 (0, 0) (2, 0) 8 [(0, 0), (1, 0), (2, 0)]
    (by decide) (by decide)

unseal Rat.add Rat.mul Rat.sub Rat.ofScientific Rat.inv in
/-- **C7, counterexample.**  On the 1×3 strip whose middle cell — which
every start-to-goal path must traverse — costs a million (the closest
rational model of an "impassable" barrier), `astar` does *not* return the
not-found value: it returns the path straight through the barrier. -/
theorem C7_counterexample :
    astar (0, 0) (2, 0) masks_c7 mults_c7 8 = some [(0, 0), (1, 0), (2, 0)] ∧
    astar (0, 0) (2, 0) masks_c7 mults_c7 8 ≠ none ∧
    cost_map masks_c7 mults_c7 1 0 = 1000000 := by
  exact ⟨by decide, by decide, by decide⟩

/-- Every valid path across the 1×3 strip passes through the barrier cell
`(1,0)` — the barrier really does separate start from goal. -/
theorem barrier_unavoidable :
    ∀ (p : List Point) (n : Point), ValidPath 1 3 n (2, 0) p → n.1 ≤ 0 → (1, 0) ∈ p := by
  intro p
  induction p with
  | nil => intro n h; obtain ⟨hh, _, _, _⟩ := h; cases hh
  | cons a tl ih =>
      intro n h hle
      have han : a = n := by
        obtain ⟨hh, _, _, _⟩ := h
        simpa using hh
      subst han
      cases tl with
      | nil =>
          obtain ⟨_, hl, _, _⟩ := h
          have : a = (2, 0) := by simpa using hl
          rw [this] at hle
          norm_num at hle
      | cons b rest =>
          obtain ⟨hdir, hinB, hvb⟩ := validPath_cons h
          have hb' : 0 ≤ b.1 ∧ b.1 < 3 ∧ 0 ≤ b.2 ∧ b.2 < 1 := hinB
          have hby : b.2 = 0 := by omega
          by_cases hbx : b.1 = 1
          · have hb10 : b = (1, 0) := by
              ext
              · exact hbx
              · exact hby
            rw [hb10]
            simp
          · have hstep : b.1 ≤ a.1 + 1 := by
              simp only [directions, List.mem_cons, List.not_mem_nil, or_false,
                Prod.mk.injEq] at hdir
              rcases hdir with ⟨h1, _⟩ | ⟨h1, _⟩ | ⟨h1, _⟩ | ⟨h1, _⟩ | ⟨h1, _⟩ | ⟨h1, _⟩ |
                ⟨h1, _⟩ | ⟨h1, _⟩ <;> omega
            have hble : b.1 ≤ 0 := by omega
            have := ih b hvb hble
            simp [this]

end Cartography

namespace Cartography

/-! ## Claim C5: undirected reachability over edge lists -/

/-- One undirected step along an edge of the list. -/
def estep (E : List (ℕ × ℕ)) (u v : ℕ) : Prop := (u, v) ∈ E ∨ (v, u) ∈ E

/-- Connectivity: the reflexive-transitive closure of `estep`. -/
def Reach (E : List (ℕ × ℕ)) : ℕ → ℕ → Prop := Relation.ReflTransGen (estep E)

/-- A forest: no edge lies on a cycle, i.e. removing any edge disconnects
its endpoints. -/
def Acyclic (E : List (ℕ × ℕ)) : Prop := ∀ e ∈ E, ¬ Reach (E.erase e) e.1 e.2

/-- The vertices incident to the edges of a list (with repetitions). -/
def everts (E : List (ℕ × ℕ)) : List ℕ := E.flatMap (fun e => [e.1, e.2])

/-- The union-find labelling obtained by merging along every edge in
order; two vertices are connected iff they get the same label
(`labelsOf_eq_iff_reach`). -/
def labelsOf (E : List (ℕ × ℕ)) : ℕ → ℕ := E.foldl mergeLab id

/-- The number of connected components of the edge list's vertex set:
distinct labels among the incident vertices. -/
def ncomps (E : List (ℕ × ℕ)) : ℕ := ((everts E).toFinset.image (labelsOf E)).card

/-- A spanning forest of the (member-wise) graph `G`: duplicate-free,
contained in `G`, acyclic, and preserving all of `G`'s connectivity. -/
def SpanningForest (F G : List (ℕ × ℕ)) : Prop :=
  F.Nodup ∧ (∀ e ∈ F, e ∈ G) ∧ Acyclic F ∧ ∀ u v, Reach G u v → Reach F u v

theorem estep_symm {E : List (ℕ × ℕ)} {u v : ℕ} (h : estep E u v) : estep E v u :=
  h.symm

theorem reach_refl (E : List (ℕ × ℕ)) (u : ℕ) : Reach E u u :=
  Relation.ReflTransGen.refl

theorem reach_single {E : List (ℕ × ℕ)} {u v : ℕ} (h : estep E u v) : Reach E u v :=
  Relation.ReflTransGen.single h

theorem reach_trans {E : List (ℕ × ℕ)} {u v w : ℕ} (h1 : Reach E u v) (h2 : Reach E v w) :
    Reach E u w :=
  Relation.ReflTransGen.trans h1 h2

theorem reach_symm {E : List (ℕ × ℕ)} {u v : ℕ} (h : Reach E u v) : Reach E v u :=
  Relation.ReflTransGen.symmetric (fun _ _ hs => estep_symm hs) h

theorem reach_of_estep_reach {E1 E2 : List (ℕ × ℕ)}
    (h : ∀ u v, estep E1 u v → Reach E2 u v) {x y : ℕ} (hr : Reach E1 x y) :
    Reach E2 x y := by
  induction hr with
  | refl => exact reach_refl E2 x
  | tail _ hs ih => exact reach_trans ih (h _ _ hs)

theorem reach_mono {E1 E2 : List (ℕ × ℕ)} (h : ∀ e ∈ E1, e ∈ E2) {x y : ℕ}
    (hr : Reach E1 x y) : Reach E2 x y := by
  refine reach_of_estep_reach ?_ hr
  intro u v hs
  rcases hs with hs | hs
  · exact reach_single (Or.inl (h _ hs))
  · exact reach_single (Or.inr (h _ hs))

theorem reach_congr {E1 E2 : List (ℕ × ℕ)} (h : ∀ e, e ∈ E1 ↔ e ∈ E2) {x y : ℕ} :
    Reach E1 x y ↔ Reach E2 x y :=
  ⟨reach_mono (fun e he => (h e).mp he), reach_mono (fun e he => (h e).mpr he)⟩

/-- Adding one edge `(u, v)` merges exactly the components of `u` and `v`. -/
theorem reach_append {E : List (ℕ × ℕ)} {u v x y : ℕ} :
    Reach (E ++ [(u, v)]) x y ↔
      Reach E x y ∨ (Reach E x u ∧ Reach E v y) ∨ (Reach E x v ∧ Reach E u y) := by
  constructor
  · intro h
    induction h with
    | refl => exact Or.inl (reach_refl E x)
    | tail _ hs ih =>
        rename_i b c _
        have hcase : estep E b c ∨ (u = b ∧ v = c) ∨ (v = b ∧ u = c) := by
          rcases hs with hs | hs
          · rw [List.mem_append] at hs
            rcases hs with hs | hs
            · exact Or.inl (Or.inl hs)
            · simp only [List.mem_singleton, Prod.mk.injEq] at hs
              exact Or.inr (Or.inl ⟨hs.1.symm, hs.2.symm⟩)
          · rw [List.mem_append] at hs
            rcases hs with hs | hs
            · exact Or.inl (Or.inr hs)
            · simp only [List.mem_singleton, Prod.mk.injEq] at hs
              exact Or.inr (Or.inr ⟨hs.2.symm, hs.1.symm⟩)
        rcases hcase with hs' | ⟨hbu, hcv⟩ | ⟨hbv, hcu⟩
        · rcases ih with ih | ⟨h1, h2⟩ | ⟨h1, h2⟩
          · exact Or.inl (reach_trans ih (reach_single hs'))
          · exact Or.inr (Or.inl ⟨h1, reach_trans h2 (reach_single hs')⟩)
          · exact Or.inr (Or.inr ⟨h1, reach_trans h2 (reach_single hs')⟩)
        · subst hbu hcv
          rcases ih with ih | ⟨h1, _⟩ | ⟨h1, _⟩
          · exact Or.inr (Or.inl ⟨ih, reach_refl E v⟩)
          · exact Or.inr (Or.inl ⟨h1, reach_refl E v⟩)
          · exact Or.inl h1
        · subst hbv hcu
          rcases ih with ih | ⟨h1, _⟩ | ⟨h1, _⟩
          · exact Or.inr (Or.inr ⟨ih, reach_refl E u⟩)
          · exact Or.inl h1
          · exact Or.inr (Or.inr ⟨h1, reach_refl E u⟩)
  · intro h
    have hsub : ∀ e ∈ E, e ∈ E ++ [(u, v)] := fun e he => List.mem_append_left _ he
    have huv : Reach (E ++ [(u, v)]) u v :=
      reach_single (Or.inl (List.mem_append_right _ (by simp)))
    rcases h with h | ⟨h1, h2⟩ | ⟨h1, h2⟩
    · exact reach_mono hsub h
    · exact reach_trans (reach_mono hsub h1)
        (reach_trans huv (reach_mono hsub h2))
    · exact reach_trans (reach_mono hsub h1)
        (reach_trans (reach_symm huv) (reach_mono hsub h2))

end Cartography

namespace Cartography

/-- A duplicate-free member-wise subset of a forest is a forest. -/
theorem acyclic_subset {E' E : List (ℕ × ℕ)} (hsub : ∀ e ∈ E', e ∈ E)
    (hnd : E'.Nodup) (hacy : Acyclic E) : Acyclic E' := by
  intro e he hre
  refine hacy e (hsub e he) ?_
  refine reach_mono ?_ hre
  intro f hf
  have hf' : f ≠ e ∧ f ∈ E' := (List.Nodup.mem_erase_iff hnd).mp hf
  exact (List.mem_erase_of_ne hf'.1).mpr (hsub f hf'.2)

/-- Appending an edge between two disconnected vertices keeps a forest
acyclic. -/
theorem acyclic_append {E : List (ℕ × ℕ)} {u v : ℕ} (hacy : Acyclic E)
    (hnr : ¬ Reach E u v) : Acyclic (E ++ [(u, v)]) := by
  have huvE : (u, v) ∉ E := fun hm => hnr (reach_single (Or.inl hm))
  intro e he hre
  rw [List.mem_append, List.mem_singleton] at he
  rcases he with he | he
  · -- an old edge: a new connection between its endpoints would have to
    -- use the new edge, contradicting that u and v were disconnected
    have hee : e ≠ (u, v) := fun h => huvE (h ▸ he)
    have herase : (E ++ [(u, v)]).erase e = E.erase e ++ [(u, v)] :=
      List.erase_append_left _ he
    rw [herase] at hre
    rcases reach_append.mp hre with h | ⟨h1, h2⟩ | ⟨h1, h2⟩
    · exact hacy e he h
    · -- e.1 ~ u and v ~ e.2 in E.erase e; but then u ~ v in E
      have hsub : ∀ f ∈ E.erase e, f ∈ E := fun f hf => List.mem_of_mem_erase hf
      have h2' : Reach E e.2 v := reach_symm (reach_mono hsub h2)
      have h1' : Reach E u e.1 := reach_symm (reach_mono hsub h1)
      have hstep : Reach E e.1 e.2 := reach_single (Or.inl he)
      exact hnr (reach_trans h1' (reach_trans hstep h2'))
    · have hsub : ∀ f ∈ E.erase e, f ∈ E := fun f hf => List.mem_of_mem_erase hf
      have h1' : Reach E v e.1 := reach_symm (reach_mono hsub h1)
      have h2' : Reach E e.2 u := reach_symm (reach_mono hsub h2)
      have hstep : Reach E e.1 e.2 := reach_single (Or.inl he)
      exact hnr (reach_symm (reach_trans h1' (reach_trans hstep h2')))
  · -- the new edge itself: erasing it leaves E, where u and v are disconnected
    subst he
    have herase : (E ++ [(u, v)]).erase (u, v) = E :=
      by rw [List.erase_append_right _ huvE]; simp
    rw [herase] at hre
    exact hnr hre

/-- `labelsOf` over a one-edge extension is a single merge. -/
theorem labelsOf_append (E : List (ℕ × ℕ)) (e : ℕ × ℕ) :
    labelsOf (E ++ [e]) = mergeLab (labelsOf E) e := by
  simp [labelsOf, List.foldl_append]

/-- Union-find correctness: two vertices receive the same label exactly
when they are connected by the processed edges. -/
theorem labelsOf_eq_iff_reach (E : List (ℕ × ℕ)) (x y : ℕ) :
    labelsOf E x = labelsOf E y ↔ Reach E x y := by
  induction E using List.reverseRecOn generalizing x y with
  | nil =>
      constructor
      · intro h
        simp only [labelsOf, List.foldl_nil, id] at h
        subst h; exact reach_refl [] x
      · intro h
        induction h with
        | refl => rfl
        | tail _ hs ih => simp [estep] at hs
  | append_singleton E e ih =>
      rw [labelsOf_append, reach_append]
      unfold mergeLab
      by_cases hx : labelsOf E x = labelsOf E e.1 <;>
        by_cases hy : labelsOf E y = labelsOf E e.1 <;>
          simp only [hx, hy, if_pos, if_neg, if_true, if_false, ite_true, ite_false]
      · -- both in u's component
        have h1 : Reach E x e.1 := (ih x e.1).mp hx
        have h2 : Reach E e.1 y := reach_symm ((ih y e.1).mp hy)
        simp only [eq_self_iff_true, true_iff]
        exact Or.inl (reach_trans h1 h2)
      · -- x in u's component, y not
        rw [ih e.2 y]
        have h1 : Reach E x e.1 := (ih x e.1).mp hx
        constructor
        · intro h2
          exact Or.inr (Or.inl ⟨h1, h2⟩)
        · rintro (h | ⟨_, h2⟩ | ⟨hxv, h2⟩)
          · exact absurd ((ih y e.1).mpr (reach_trans (reach_symm h) h1)) hy
          · exact h2
          · exact absurd ((ih y e.1).mpr (reach_symm h2)) hy
      · -- y in u's component, x not
        rw [ih x e.2]
        have h1 : Reach E y e.1 := (ih y e.1).mp hy
        constructor
        · intro h2
          exact Or.inr (Or.inr ⟨h2, reach_symm h1⟩)
        · rintro (h | ⟨hxu, _⟩ | ⟨h2, _⟩)
          · exact absurd ((ih x e.1).mpr (reach_trans h h1)) hx
          · exact absurd ((ih x e.1).mpr hxu) hx
          · exact h2
      · -- neither endpoint relabelled
        rw [ih x y]
        constructor
        · exact Or.inl
        · rintro (h | ⟨hxu, _⟩ | ⟨_, huy⟩)
          · exact h
          · exact absurd ((ih x e.1).mpr hxu) hx
          · exact absurd ((ih y e.1).mpr (reach_symm huy)) hy

end Cartography

namespace Cartography

/-- If `f`'s partition refines `g`'s on `V`, then `g` has at most as many
classes. -/
theorem card_image_le_of_refines {V : Finset ℕ} {f g : ℕ → ℕ}
    (h : ∀ x ∈ V, ∀ y ∈ V, f x = f y → g x = g y) :
    (V.image g).card ≤ (V.image f).card := by
  classical
  set h' : ℕ → ℕ := fun b => if hb : ∃ x, x ∈ V ∧ f x = b then g hb.choose else b with hh'
  have himg : V.image g = (V.image f).image h' := by
    rw [Finset.image_image]
    refine Finset.image_congr ?_
    intro x hx
    simp only [Function.comp_apply, hh']
    have hex : ∃ z, z ∈ V ∧ f z = f x := ⟨x, hx, rfl⟩
    rw [dif_pos hex]
    exact (h _ hex.choose_spec.1 x hx hex.choose_spec.2).symm
  rw [himg]
  exact Finset.card_image_le

/-- Functions inducing the same partition of `V` have the same number of
classes. -/
theorem card_image_eq_of_equiv {V : Finset ℕ} {f g : ℕ → ℕ}
    (h : ∀ x ∈ V, ∀ y ∈ V, (f x = f y ↔ g x = g y)) :
    (V.image f).card = (V.image g).card :=
  le_antisymm
    (card_image_le_of_refines fun x hx y hy hxy => (h x hx y hy).mpr hxy)
    (card_image_le_of_refines fun x hx y hy hxy => (h x hx y hy).mp hxy)

/-- Merging two previously disconnected components drops the label count
by exactly one. -/
theorem card_image_merge {V : Finset ℕ} {E : List (ℕ × ℕ)} {u v : ℕ}
    (hu : u ∈ V) (hv : v ∈ V) (hnr : ¬ Reach E u v) :
    (V.image (labelsOf (E ++ [(u, v)]))).card + 1 = (V.image (labelsOf E)).card := by
  classical
  set f := labelsOf E with hf
  have hne : f u ≠ f v := fun h => hnr ((labelsOf_eq_iff_reach E u v).mp h)
  have himg : V.image (labelsOf (E ++ [(u, v)])) =
      insert (f v) ((V.image f).erase (f u)) := by
    rw [labelsOf_append]
    ext b
    simp only [Finset.mem_image, Finset.mem_insert, Finset.mem_erase, mergeLab]
    constructor
    · rintro ⟨x, hx, hxb⟩
      by_cases hfx : f x = f u
      · rw [if_pos hfx] at hxb
        exact Or.inl hxb.symm
      · rw [if_neg hfx] at hxb
        exact Or.inr ⟨fun h => hfx (hxb.trans h), ⟨x, hx, hxb⟩⟩
    · rintro (rfl | ⟨hbu, x, hx, hxb⟩)
      · exact ⟨v, hv, by rw [if_neg (Ne.symm hne)]⟩
      · exact ⟨x, hx, by rw [if_neg (fun h => hbu (hxb ▸ h))]; exact hxb⟩
  rw [himg]
  have hfu : f u ∈ V.image f := Finset.mem_image_of_mem f hu
  have hfv : f v ∈ (V.image f).erase (f u) :=
    Finset.mem_erase.mpr ⟨hne.symm, Finset.mem_image_of_mem f hv⟩
  rw [Finset.insert_eq_self.mpr hfv, Finset.card_erase_of_mem hfu]
  have hpos : 0 < (V.image f).card := Finset.card_pos.mpr ⟨f u, hfu⟩
  omega

/-- Counting: a forest with `k` duplicate-free edges over vertex set `V`
has exactly `V.card - k` components. -/
theorem acyclic_count {V : Finset ℕ} (E : List (ℕ × ℕ)) (hnd : E.Nodup)
    (hacy : Acyclic E) (hV : ∀ e ∈ E, e.1 ∈ V ∧ e.2 ∈ V) :
    E.length + (V.image (labelsOf E)).card = V.card := by
  induction E using List.reverseRecOn with
  | nil => simp [labelsOf]
  | append_singleton E e ih =>
      have hndE : E.Nodup := (List.nodup_append.mp hnd).1
      have heE : e ∉ E := by
        have := (List.nodup_append.mp hnd).2.2
        intro hmem
        exact this hmem (List.mem_singleton_self e)
      have hacyE : Acyclic E :=
        acyclic_subset (fun f hf => List.mem_append_left _ hf) hndE hacy
      have hnr : ¬ Reach E e.1 e.2 := by
        have h := hacy e (List.mem_append_right _ (List.mem_singleton_self e))
        have herase : (E ++ [e]).erase e = E := by
          rw [List.erase_append_right _ heE]; simp
        rwa [herase] at h
      have hVe := hV e (List.mem_append_right _ (List.mem_singleton_self e))
      have hmerge := card_image_merge (E := E) hVe.1 hVe.2 hnr
      have hEe : E ++ [(e.1, e.2)] = E ++ [e] := by simp
      rw [hEe] at hmerge
      have ihh := ih hndE hacyE (fun f hf => hV f (List.mem_append_left _ hf))
      simp only [List.length_append, List.length_singleton]
      omega

end Cartography

namespace Cartography

/-- Exchange: a strictly larger forest over the same vertex set contains
an edge joining two components of the smaller one. -/
theorem forest_exchange {V : Finset ℕ} {A B : List (ℕ × ℕ)}
    (hndA : A.Nodup) (hndB : B.Nodup) (hacyA : Acyclic A) (hacyB : Acyclic B)
    (hVA : ∀ e ∈ A, e.1 ∈ V ∧ e.2 ∈ V) (hVB : ∀ e ∈ B, e.1 ∈ V ∧ e.2 ∈ V)
    (hlen : A.length < B.length) :
    ∃ f ∈ B, f ∉ A ∧ ¬ Reach A f.1 f.2 := by
  by_contra hcon
  push_neg at hcon
  have hBA : ∀ x y, Reach B x y → Reach A x y := by
    intro x y h
    refine reach_of_estep_reach ?_ h
    intro u v hs
    rcases hs with hs | hs
    · by_cases hA : (u, v) ∈ A
      · exact reach_single (Or.inl hA)
      · exact hcon _ hs hA
    · by_cases hA : (v, u) ∈ A
      · exact reach_single (Or.inr hA)
      · exact reach_symm (hcon _ hs hA)
  have hle : (V.image (labelsOf A)).card ≤ (V.image (labelsOf B)).card :=
    card_image_le_of_refines (fun x hx y hy hxy =>
      (labelsOf_eq_iff_reach A x y).mpr (hBA x y ((labelsOf_eq_iff_reach B x y).mp hxy)))
  have hcA := acyclic_count (V := V) A hndA hacyA hVA
  have hcB := acyclic_count (V := V) B hndB hacyB hVB
  omega

end Cartography

namespace Cartography

theorem addEdge_nodup {es : List (ℕ × ℕ)} (h : es.Nodup) (e : ℕ × ℕ) :
    (addEdge es e).Nodup := by
  unfold addEdge
  split
  · exact h
  · next hne =>
      refine List.Nodup.append h (List.nodup_singleton e) ?_
      intro a ha hae
      rw [List.mem_singleton] at hae
      exact hne (hae ▸ ha)

theorem foldl_addEdge_nodup (g : ℕ × ℕ → ℕ × ℕ) :
    ∀ (l : List (ℕ × ℕ)) (acc : List (ℕ × ℕ)), acc.Nodup →
      (l.foldl (fun acc e => addEdge acc (g e)) acc).Nodup := by
  intro l
  induction l with
  | nil => intro acc h; exact h
  | cons e l ih => intro acc h; exact ih _ (addEdge_nodup h (g e))

theorem graphEdges_nodup (centers : List QPoint) (max_length : Option ℕ) :
    (graphEdges centers max_length).Nodup :=
  foldl_addEdge_nodup undir _ [] List.nodup_nil

/-- The state invariant of Kruskal's fold over a weight-sorted edge list:
the accepted list is an acyclic sublist of the input, the carried labelling
is its union-find labelling, and every processed edge is either accepted or
already connected by accepted edges no heavier than itself. -/
theorem kruskal_go (w : ℕ × ℕ → ℚ) :
    ∀ (todo done T : List (ℕ × ℕ)),
      (done ++ todo).Nodup →
      List.Sorted (fun a b => w a ≤ w b) (done ++ todo) →
      T.Sublist done →
      Acyclic T →
      (∀ e ∈ done, e ∈ T ∨ Reach (T.filter (fun t => decide (w t ≤ w e))) e.1 e.2) →
      (todo.foldl kruskalStep (T, labelsOf T)).1.Sublist (done ++ todo) ∧
      (todo.foldl kruskalStep (T, labelsOf T)).2 =
        labelsOf (todo.foldl kruskalStep (T, labelsOf T)).1 ∧
      Acyclic (todo.foldl kruskalStep (T, labelsOf T)).1 ∧
      (∀ e ∈ done ++ todo, e ∈ (todo.foldl kruskalStep (T, labelsOf T)).1 ∨
        Reach ((todo.foldl kruskalStep (T, labelsOf T)).1.filter
          (fun t => decide (w t ≤ w e))) e.1 e.2) := by
  intro todo
  induction todo with
  | nil =>
      intro done T hnd hsort hsub hacy hdone
      refine ⟨by simpa using hsub, rfl, hacy, by simpa using hdone⟩
  | cons e rest ih =>
      intro done T hnd hsort hsub hacy hdone
      have hassoc : (done ++ [e]) ++ rest = done ++ e :: rest := by simp
      have hwle : ∀ t ∈ done, w t ≤ w e := by
        intro t ht
        have := (List.pairwise_append.mp hsort).2.2
        exact this t ht e (List.mem_cons_self e rest)
      rw [List.foldl_cons]
      by_cases hlab : labelsOf T e.1 = labelsOf T e.2
      · -- rejected: endpoints already in the same component
        have hstep : kruskalStep (T, labelsOf T) e = (T, labelsOf T) := by
          simp [kruskalStep, hlab]
        rw [hstep]
        have hre : Reach T e.1 e.2 := (labelsOf_eq_iff_reach T e.1 e.2).mp hlab
        have hfe : T.filter (fun t => decide (w t ≤ w e)) = T := by
          refine List.filter_eq_self.mpr ?_
          intro t ht
          have htd : t ∈ done := hsub.subset ht
          exact decide_eq_true (hwle t htd)
        have hdone' : ∀ f ∈ done ++ [e],
            f ∈ T ∨ Reach (T.filter (fun t => decide (w t ≤ w f))) f.1 f.2 := by
          intro f hf
          rw [List.mem_append, List.mem_singleton] at hf
          rcases hf with hf | rfl
          · exact hdone f hf
          · exact Or.inr (by rw [hfe]; exact hre)
        have := ih (done ++ [e]) T (hassoc ▸ hnd) (hassoc ▸ hsort)
          (hsub.trans (List.sublist_append_left done [e])) hacy hdone'
        rw [hassoc] at this
        exact this
      · -- accepted: the edge joins two different components
        have hstep : kruskalStep (T, labelsOf T) e = (T ++ [e], labelsOf (T ++ [e])) := by
          simp [kruskalStep, hlab, labelsOf_append]
        rw [hstep]
        have hnr : ¬ Reach T e.1 e.2 :=
          fun h => hlab ((labelsOf_eq_iff_reach T e.1 e.2).mpr h)
        have hacy' : Acyclic (T ++ [e]) := acyclic_append hacy hnr
        have hdone' : ∀ f ∈ done ++ [e],
            f ∈ T ++ [e] ∨
              Reach ((T ++ [e]).filter (fun t => decide (w t ≤ w f))) f.1 f.2 := by
          intro f hf
          rw [List.mem_append, List.mem_singleton] at hf
          rcases hf with hf | rfl
          · rcases hdone f hf with h | h
            · exact Or.inl (List.mem_append_left _ h)
            · refine Or.inr (reach_mono ?_ h)
              intro t ht
              rw [List.mem_filter] at ht ⊢
              exact ⟨List.mem_append_left _ ht.1, ht.2⟩
          · exact Or.inl (List.mem_append_right _ (List.mem_singleton_self _))
        have := ih (done ++ [e]) (T ++ [e]) (hassoc ▸ hnd) (hassoc ▸ hsort)
          (hsub.append (List.Sublist.refl [e])) hacy' hdone'
        rw [hassoc] at this
        exact this

end Cartography

namespace Cartography

/-- Kruskal on a duplicate-free weight-sorted edge list produces an
acyclic sublist, and every input edge is accepted or connected by
accepted edges no heavier than itself. -/
theorem kruskal_facts (w : ℕ × ℕ → ℚ) (es : List (ℕ × ℕ)) (hnd : es.Nodup)
    (hsort : List.Sorted (fun a b => w a ≤ w b) es) :
    (kruskal es).Sublist es ∧ Acyclic (kruskal es) ∧
      (∀ e ∈ es, e ∈ kruskal es ∨
        Reach ((kruskal es).filter (fun t => decide (w t ≤ w e))) e.1 e.2) := by
  have h := kruskal_go w es [] [] (by simpa using hnd) (by simpa using hsort)
    (List.Sublist.refl []) (fun e he => absurd he (List.not_mem_nil e))
    (fun e he => absurd he (List.not_mem_nil e))
  simp only [List.nil_append] at h
  exact ⟨h.1, h.2.2.1, h.2.2.2⟩

/-- The accepted forest spans: it preserves all connectivity of its input. -/
theorem kruskal_spanning (w : ℕ × ℕ → ℚ) (es : List (ℕ × ℕ)) (hnd : es.Nodup)
    (hsort : List.Sorted (fun a b => w a ≤ w b) es) :
    ∀ u v, Reach es u v → Reach (kruskal es) u v := by
  intro u v h
  refine reach_of_estep_reach ?_ h
  intro a b hs
  have hfs := (kruskal_facts w es hnd hsort).2.2
  have hfilter : ∀ (e : ℕ × ℕ),
      Reach ((kruskal es).filter (fun t => decide (w t ≤ w e))) e.1 e.2 →
      Reach (kruskal es) e.1 e.2 :=
    fun e he => reach_mono (fun t ht => (List.mem_filter.mp ht).1) he
  rcases hs with hs | hs
  · rcases hfs _ hs with h' | h'
    · exact reach_single (Or.inl h')
    · exact hfilter (a, b) h'
  · rcases hfs _ hs with h' | h'
    · exact reach_single (Or.inr h')
    · exact reach_symm (hfilter (b, a) h')

/-- In a weight-sorted list, an element strictly lighter than the one in
position `i` occurs among the first `i`. -/
theorem mem_take_of_lt_weight (w : ℕ × ℕ → ℚ) {T : List (ℕ × ℕ)}
    (hsort : List.Sorted (fun a b => w a ≤ w b) T) {i : ℕ} (hi : i < T.length)
    {t : ℕ × ℕ} (ht : t ∈ T) (hw : w t < w T[i]) : t ∈ T.take i := by
  have htm : t ∈ T.take i ∨ t ∈ T.drop i := by
    rw [← List.mem_append, List.take_append_drop]; exact ht
  rcases htm with h | h
  · exact h
  · exfalso
    have hdrop : T.drop i = T[i] :: T.drop (i + 1) := List.drop_eq_getElem_cons hi
    have hsd : List.Sorted (fun a b => w a ≤ w b) (T.drop i) :=
      List.Pairwise.sublist (List.drop_sublist i T) hsort
    rw [hdrop] at hsd h
    rcases List.mem_cons.mp h with rfl | h
    · exact absurd hw (lt_irrefl _)
    · exact absurd (List.rel_of_sorted_cons hsd t h) (not_le.mpr hw)

/-- Pointwise comparison of equally long lists transfers to mapped sums. -/
theorem sum_map_le_of_pointwise (g : ℕ × ℕ → ℝ) :
    ∀ (l1 l2 : List (ℕ × ℕ)), l1.length = l2.length →
      (∀ (i : ℕ) (h1 : i < l1.length) (h2 : i < l2.length), g l1[i] ≤ g l2[i]) →
      (l1.map g).sum ≤ (l2.map g).sum := by
  intro l1
  induction l1 with
  | nil =>
      intro l2 hlen _
      have : l2 = [] := List.eq_nil_of_length_eq_zero hlen.symm
      subst this; simp
  | cons a l1 ih =>
      intro l2 hlen hpt
      cases l2 with
      | nil => simp at hlen
      | cons b l2 =>
          simp only [List.map_cons, List.sum_cons]
          have h0 := hpt 0 (by simp) (by simp)
          simp only [List.getElem_cons_zero] at h0
          have htail := ih l2 (by simpa using hlen)
            (fun i h1 h2 => by
              have := hpt (i + 1) (by simpa using Nat.succ_lt_succ h1)
                (by simpa using Nat.succ_lt_succ h2)
              simpa using this)
          exact add_le_add h0 htail

end Cartography

namespace Cartography

theorem sorted_getElem_le (w : ℕ × ℕ → ℚ) {l : List (ℕ × ℕ)}
    (h : List.Sorted (fun a b => w a ≤ w b) l) {i j : ℕ} (hi : i < l.length)
    (hj : j < l.length) (hij : i ≤ j) : w l[i] ≤ w l[j] := by
  rcases Nat.lt_or_ge i j with hlt | hge
  · exact List.pairwise_iff_getElem.mp h i j hi hj hlt
  · have heq : i = j := le_antisymm hij hge
    subst heq; exact le_refl _

theorem everts_mem {G : List (ℕ × ℕ)} {e : ℕ × ℕ} (he : e ∈ G) :
    e.1 ∈ (everts G).toFinset ∧ e.2 ∈ (everts G).toFinset := by
  constructor <;>
    · rw [List.mem_toFinset]
      exact List.mem_flatMap.mpr ⟨e, he, by simp⟩

/-- The Kruskal run of `generate_path_tree` returns a spanning forest of
the filtered Delaunay graph. -/
theorem kruskal_sf (centers : List QPoint) (G : List (ℕ × ℕ)) (hndG : G.Nodup) :
    SpanningForest (kruskal (sortEdges centers G)) G := by
  haveI : IsTotal (ℕ × ℕ) (fun a b => edgeW centers a ≤ edgeW centers b) :=
    ⟨fun a b => le_total _ _⟩
  haveI : IsTrans (ℕ × ℕ) (fun a b => edgeW centers a ≤ edgeW centers b) :=
    ⟨fun a b c hab hbc => le_trans hab hbc⟩
  have hperm : (sortEdges centers G).Perm G := List.perm_insertionSort _ G
  have hndes : (sortEdges centers G).Nodup := hperm.nodup_iff.mpr hndG
  have hsort : List.Sorted (fun a b => edgeW centers a ≤ edgeW centers b)
      (sortEdges centers G) := List.sorted_insertionSort _ G
  obtain ⟨hTsub, hacyT, _⟩ := kruskal_facts (edgeW centers) _ hndes hsort
  refine ⟨hndes.sublist hTsub, ?_, hacyT, ?_⟩
  · exact fun e he => hperm.mem_iff.mp (hTsub.subset he)
  · intro u v h
    have hGes : ∀ e, e ∈ G ↔ e ∈ sortEdges centers G := fun e => hperm.mem_iff.symm
    exact kruskal_spanning (edgeW centers) _ hndes hsort u v ((reach_congr hGes).mp h)

/-- Edge count: the forest has (number of incident vertices) minus
(number of components of the graph) edges. -/
theorem kruskal_count (centers : List QPoint) (G : List (ℕ × ℕ)) (hndG : G.Nodup) :
    (kruskal (sortEdges centers G)).length + ncomps G = ((everts G).toFinset).card := by
  obtain ⟨hndT, hTG, hacyT, hspan⟩ := kruskal_sf centers G hndG
  have hVT : ∀ e ∈ kruskal (sortEdges centers G),
      e.1 ∈ (everts G).toFinset ∧ e.2 ∈ (everts G).toFinset :=
    fun e he => everts_mem (hTG e he)
  have hcount := acyclic_count (V := (everts G).toFinset) _ hndT hacyT hVT
  have hceq : (((everts G).toFinset).image (labelsOf (kruskal (sortEdges centers G)))).card =
      (((everts G).toFinset).image (labelsOf G)).card := by
    refine card_image_eq_of_equiv ?_
    intro x _ y _
    rw [labelsOf_eq_iff_reach, labelsOf_eq_iff_reach]
    exact ⟨fun h => reach_mono hTG h, fun h => hspan x y h⟩
  rw [ncomps, ← hceq]
  exact hcount

/-- Weight minimality: the Kruskal forest's total Euclidean edge length is
no larger than that of any spanning forest of the same graph. -/
theorem kruskal_min (centers : List QPoint) (G : List (ℕ × ℕ)) (hndG : G.Nodup)
    (F : List (ℕ × ℕ)) (hF : SpanningForest F G) :
    ((kruskal (sortEdges centers G)).map
        (fun e => Real.sqrt ((edgeW centers e : ℝ)))).sum ≤
      (F.map (fun e => Real.sqrt ((edgeW centers e : ℝ)))).sum := by
  haveI : IsTotal (ℕ × ℕ) (fun a b => edgeW centers a ≤ edgeW centers b) :=
    ⟨fun a b => le_total _ _⟩
  haveI : IsTrans (ℕ × ℕ) (fun a b => edgeW centers a ≤ edgeW centers b) :=
    ⟨fun a b c hab hbc => le_trans hab hbc⟩
  have hperm : (sortEdges centers G).Perm G := List.perm_insertionSort _ G
  have hndes : (sortEdges centers G).Nodup := hperm.nodup_iff.mpr hndG
  have hsort : List.Sorted (fun a b => edgeW centers a ≤ edgeW centers b)
      (sortEdges centers G) := List.sorted_insertionSort _ G
  obtain ⟨hTsub, hacyT, hproc⟩ := kruskal_facts (edgeW centers) _ hndes hsort
  obtain ⟨hndT, hTG, _, hspan⟩ := kruskal_sf centers G hndG
  have hsortT : List.Sorted (fun a b => edgeW centers a ≤ edgeW centers b)
      (kruskal (sortEdges centers G)) := List.Pairwise.sublist hTsub hsort
  have hVT : ∀ e ∈ kruskal (sortEdges centers G),
      e.1 ∈ (everts G).toFinset ∧ e.2 ∈ (everts G).toFinset :=
    fun e he => everts_mem (hTG e he)
  have hVF : ∀ e ∈ F, e.1 ∈ (everts G).toFinset ∧ e.2 ∈ (everts G).toFinset :=
    fun e he => everts_mem (hF.2.1 e he)
  -- equal component counts force equal edge counts
  have hcT := acyclic_count (V := (everts G).toFinset) _ hndT hacyT hVT
  have hcF := acyclic_count (V := (everts G).toFinset) F hF.1 hF.2.2.1 hVF
  have hceq : (((everts G).toFinset).image (labelsOf (kruskal (sortEdges centers G)))).card =
      (((everts G).toFinset).image (labelsOf F)).card := by
    refine card_image_eq_of_equiv ?_
    intro x _ y _
    rw [labelsOf_eq_iff_reach, labelsOf_eq_iff_reach]
    constructor
    · exact fun h => hF.2.2.2 x y (reach_mono hTG h)
    · exact fun h => hspan x y (reach_mono hF.2.1 h)
  have hlen : (kruskal (sortEdges centers G)).length = F.length := by omega
  -- sort F by weight as well
  have hpermF : (List.insertionSort (fun a b => edgeW centers a ≤ edgeW centers b) F).Perm F :=
    List.perm_insertionSort _ F
  have hsortF : List.Sorted (fun a b => edgeW centers a ≤ edgeW centers b)
      (List.insertionSort (fun a b => edgeW centers a ≤ edgeW centers b) F) :=
    List.sorted_insertionSort _ F
  have hndsF : (List.insertionSort (fun a b => edgeW centers a ≤ edgeW centers b) F).Nodup :=
    hpermF.nodup_iff.mpr hF.1
  have hsFF : ∀ e ∈ List.insertionSort (fun a b => edgeW centers a ≤ edgeW centers b) F,
      e ∈ F := fun e he => hpermF.mem_iff.mp he
  have hacysF : Acyclic (List.insertionSort (fun a b => edgeW centers a ≤ edgeW centers b) F) :=
    acyclic_subset hsFF hndsF hF.2.2.1
  have hsFlen : (List.insertionSort (fun a b => edgeW centers a ≤ edgeW centers b) F).length =
      (kruskal (sortEdges centers G)).length := by
    rw [hpermF.length_eq, hlen]
  -- greedy stays ahead, position by position
  have hpoint : ∀ (i : ℕ) (h1 : i < (kruskal (sortEdges centers G)).length)
      (h2 : i < (List.insertionSort (fun a b => edgeW centers a ≤ edgeW centers b) F).length),
      edgeW centers (kruskal (sortEdges centers G))[i] ≤
        edgeW centers (List.insertionSort (fun a b => edgeW centers a ≤ edgeW centers b) F)[i] := by
    intro i h1 h2
    by_contra hlt
    push_neg at hlt
    obtain ⟨f, hfB, hfA, hfnr⟩ := forest_exchange (V := (everts G).toFinset)
      (A := (kruskal (sortEdges centers G)).take i)
      (B := (List.insertionSort (fun a b => edgeW centers a ≤ edgeW centers b) F).take (i + 1))
      (hndT.sublist (List.take_sublist _ _))
      (hndsF.sublist (List.take_sublist _ _))
      (acyclic_subset (List.take_sublist _ _).subset (hndT.sublist (List.take_sublist _ _)) hacyT)
      (acyclic_subset (List.take_sublist _ _).subset (hndsF.sublist (List.take_sublist _ _)) hacysF)
      (fun e he => hVT e ((List.take_sublist _ _).subset he))
      (fun e he => hVF e (hsFF e ((List.take_sublist _ _).subset he)))
      (by rw [List.length_take, List.length_take]; omega)
    -- the exchanged edge is no heavier than F's i-th lightest
    have hwf : edgeW centers f ≤
        edgeW centers (List.insertionSort (fun a b => edgeW centers a ≤ edgeW centers b) F)[i] := by
      obtain ⟨j, hj, hjf⟩ := List.getElem_of_mem hfB
      have hj' : j < i + 1 := by
        rw [List.length_take] at hj; omega
      have hjsF : j < (List.insertionSort (fun a b => edgeW centers a ≤ edgeW centers b) F).length := by
        omega
      rw [← hjf, List.getElem_take]
      exact sorted_getElem_le (edgeW centers) hsortF hjsF h2 (by omega)
    have hfG : f ∈ G := hF.2.1 f (hsFF f ((List.take_sublist _ _).subset hfB))
    have hfes : f ∈ sortEdges centers G := hperm.mem_iff.mpr hfG
    rcases hproc f hfes with hfT | hfreach
    · -- accepted by Kruskal, but lighter than position i: it sits in the first i
      have hwlt : edgeW centers f < edgeW centers (kruskal (sortEdges centers G))[i] :=
        lt_of_le_of_lt hwf hlt
      exact hfA (mem_take_of_lt_weight (edgeW centers) hsortT h1 hfT hwlt)
    · -- connected by strictly lighter accepted edges: all of them in the first i
      refine hfnr (reach_mono ?_ hfreach)
      intro t ht
      rw [List.mem_filter] at ht
      have hwt : edgeW centers t ≤ edgeW centers f := of_decide_eq_true ht.2
      have hwlt : edgeW centers t < edgeW centers (kruskal (sortEdges centers G))[i] :=
        lt_of_le_of_lt (le_trans hwt hwf) hlt
      exact mem_take_of_lt_weight (edgeW centers) hsortT h1 ht.1 hwlt
  -- pointwise weights transfer through sqrt to the sums
  have hsum1 : ((kruskal (sortEdges centers G)).map
      (fun e => Real.sqrt ((edgeW centers e : ℝ)))).sum ≤
      ((List.insertionSort (fun a b => edgeW centers a ≤ edgeW centers b) F).map
        (fun e => Real.sqrt ((edgeW centers e : ℝ)))).sum := by
    refine sum_map_le_of_pointwise _ _ _ (by omega) ?_
    intro i h1 h2
    refine Real.sqrt_le_sqrt ?_
    exact_mod_cast hpoint i h1 h2
  have hsum2 : ((List.insertionSort (fun a b => edgeW centers a ≤ edgeW centers b) F).map
      (fun e => Real.sqrt ((edgeW centers e : ℝ)))).sum =
      (F.map (fun e => Real.sqrt ((edgeW centers e : ℝ)))).sum :=
    (hpermF.map _).sum_eq
  linarith

end Cartography

namespace Cartography

/-- C5: for every list of buildings (hence of building centers) and every
optional max-length filter, the edge set produced by `generate_path_tree`
is a spanning forest of the length-filtered Delaunay graph (in particular
it contains no cycles), its edge count equals the number of incident nodes
minus the number of connected components of that filtered graph, and its
total Euclidean edge weight is less than or equal to the total weight of
every spanning forest of the filtered graph. -/
theorem C5_generate_path_tree_msf (buildings : List Placed) (max_length : Option ℕ) :
    SpanningForest (path_tree_edges buildings max_length)
      (graphEdges (building_centers buildings) max_length) ∧
    (path_tree_edges buildings max_length).length +
        ncomps (graphEdges (building_centers buildings) max_length) =
      ((everts (graphEdges (building_centers buildings) max_length)).toFinset).card ∧
    (∀ F, SpanningForest F (graphEdges (building_centers buildings) max_length) →
      ((path_tree_edges buildings max_length).map
          (fun e => Real.sqrt ((edgeW (building_centers buildings) e : ℝ)))).sum ≤
        (F.map (fun e => Real.sqrt ((edgeW (building_centers buildings) e : ℝ)))).sum) ∧
    generate_path_tree buildings max_length =
      (path_tree_edges buildings max_length).map (fun e =>
        ((building_centers buildings).getD e.1 (0, 0),
         (building_centers buildings).getD e.2 (0, 0))) := by
  have hnd := graphEdges_nodup (building_centers buildings) max_length
  refine ⟨?_, ?_, ?_, rfl⟩
  · exact kruskal_sf _ _ hnd
  · exact kruskal_count _ _ hnd
  · exact fun F hF => kruskal_min _ _ hnd F hF

end Cartography
